import Mathlib

/-!
Verification of the selector-dispatch specification against the repository's
source. The only executable logic in the repository is the `get-selectors.sh`
script embedded in the Huff-dispatcher article (src/unnamed/part_001): a bash
driver with a python3 canonicalization path, a sed/IFS bash fallback path, and
an awk extraction step. Those are embedded here over `List Char` so that every
step of the pipeline is a computable Lean function mirroring the source.

The dispatch-table builder, mask-width search and lookup procedure described
by the spec exist in the repository only as prose and intentionally incomplete
Huff pseudocode; they are modelled from the spec's words (each such definition
carries a doc comment starting with `Modelled from the spec:`).
-/

/-- Word characters of the regex class `\w` / `[A-Za-z0-9_]` (ASCII inputs). -/
def isWordChar (c : Char) : Bool :=
  ('a' ≤ c && c ≤ 'z') || ('A' ≤ c && c ≤ 'Z') || ('0' ≤ c && c ≤ '9') || c = '_'

/-- Whitespace as recognized by python's `str.isspace` / regex `\s`
    (space, tab, newline, carriage return, vertical tab, form feed). -/
def isPySpace (c : Char) : Bool :=
  c = ' ' || c = '\t' || c = '\n' || c = '\r' || c = '\x0b' || c = '\x0c'

/-- The data-location / indexing keywords removed by
    `re.sub(r'\b(memory|calldata|storage|indexed)\b', '', p)` in `clean_param`,
    and by the corresponding `sed -E` command of the bash fallback. -/
def sigKeywords : List (List Char) :=
  ["memory".data, "calldata".data, "storage".data, "indexed".data]

/-- Right word-boundary check for a keyword match: the character following the
    keyword (if any) must not be a word character. -/
def kwRightBoundary (kw l : List Char) : Bool :=
  match l.drop kw.length with
  | [] => true
  | c :: _ => !(isWordChar c)

/-- If one of `sigKeywords` matches at the head of `l` with a right word
    boundary, return its length (the keywords start with word characters, so
    the left boundary is checked by the caller via the previous character). -/
def findKwLen (l : List Char) : Option Nat :=
  sigKeywords.foldr
    (fun kw acc => if kw.isPrefixOf l && kwRightBoundary kw l then some kw.length else acc)
    none

/-- Scanner for `re.sub(r'\b(memory|calldata|storage|indexed)\b', '', p)`:
    left-to-right, non-overlapping matches, each replaced by the empty string.
    `prevWord` records whether the previous character of the original string is
    a word character (the `\b` left-boundary state); `skip` counts characters
    still to be dropped from a keyword match already begun. -/
def removeKwsAux : Bool → Nat → List Char → List Char
  | _, _, [] => []
  | prevWord, skip, c :: cs =>
    if skip ≠ 0 then removeKwsAux true (skip - 1) cs
    else if prevWord then c :: removeKwsAux (isWordChar c) 0 cs
    else
      match findKwLen (c :: cs) with
      | some n => removeKwsAux true (n - 1) cs
      | none => c :: removeKwsAux (isWordChar c) 0 cs

/-- Keyword removal, shared verbatim by the python path (`re.sub`) and the bash
    fallback (`sed -E 's/\b(memory|calldata|storage|indexed)\b//g'`): both use
    the same alternation and `\b` boundaries over ASCII word characters. -/
def removeKws (l : List Char) : List Char :=
  removeKwsAux false 0 l

/-- `re.sub(r'\s+', ' ', p)`: every maximal run of whitespace becomes one space. -/
def collapseWs : List Char → List Char
  | [] => []
  | [c] => if isPySpace c then [' '] else [c]
  | c :: c2 :: cs =>
    if isPySpace c then
      if isPySpace c2 then collapseWs (c2 :: cs) else ' ' :: collapseWs (c2 :: cs)
    else c :: collapseWs (c2 :: cs)

/-- Python `str.strip()`: drop leading and trailing whitespace. -/
def pyStrip (l : List Char) : List Char :=
  ((l.dropWhile isPySpace).reverse.dropWhile isPySpace).reverse

/-- The parenthesis-depth update of the python splitter:
    `if ch == '(': depth += 1 elif ch == ')': depth = max(depth - 1, 0)`
    (the clamp is Nat subtraction here). -/
def depthStep (d : Nat) (c : Char) : Nat :=
  if c = '(' then d + 1 else if c = ')' then d - 1 else d

/-- The comma-splitting loop of the python path: split on commas only at
    parenthesis depth 0, stripping each item; a final non-empty buffer is
    appended (`if buf: items.append(...)`). -/
def splitTLAux : Nat → List Char → List Char → List (List Char)
  | _, buf, [] => if buf = [] then [] else [pyStrip buf.reverse]
  | depth, buf, c :: cs =>
    if c = ',' && depth = 0 then pyStrip buf.reverse :: splitTLAux 0 [] cs
    else splitTLAux (depthStep depth c) (c :: buf) cs

/-- Split a raw parameter list on top-level commas (python path of
    `normalize_signature`). -/
def splitTopLevelCommas (l : List Char) : List (List Char) :=
  splitTLAux 0 [] l

/-- Parenthesis depth (clamped at zero) after scanning `l` from depth `d`. -/
def depthRun (d : Nat) : List Char → Nat
  | [] => d
  | c :: cs => depthRun (depthStep d c) cs

/-- `l` contains no comma at clamped parenthesis depth 0 when scanned from
    depth `d` (so the python splitter never splits inside `l`). -/
def noTLComma (d : Nat) : List Char → Bool
  | [] => true
  | c :: cs => if c = ',' && d = 0 then false else noTLComma (depthStep d c) cs

/-- The index-tracking loop of `clean_param`: the index of the last whitespace
    character that occurs at parenthesis depth 0 (depth clamped at zero). -/
def lastTLSpaceAux : Nat → Nat → Option Nat → List Char → Option Nat
  | _, _, acc, [] => acc
  | i, d, acc, c :: cs =>
    if c = '(' then lastTLSpaceAux (i + 1) (d + 1) acc cs
    else if c = ')' then lastTLSpaceAux (i + 1) (d - 1) acc cs
    else if isPySpace c && d = 0 then lastTLSpaceAux (i + 1) d (some i) cs
    else lastTLSpaceAux (i + 1) d acc cs

/-- Index of the last top-level whitespace character of `l`, if any. -/
def lastTLSpace (l : List Char) : Option Nat :=
  lastTLSpaceAux 0 0 none l

/-- `clean_param` from the python path: remove data-location keywords, collapse
    whitespace, strip, then drop everything from the last top-level space on
    (`p[:last_space].strip()`), which discards the parameter name. -/
def clean_param (p : List Char) : List Char :=
  if p = [] then []
  else if pyStrip (collapseWs (removeKws p)) = [] then []
  else
    match lastTLSpace (pyStrip (collapseWs (removeKws p))) with
    | none => pyStrip (collapseWs (removeKws p))
    | some i => pyStrip ((pyStrip (collapseWs (removeKws p))).take i)

/-- The cleaned, comma-ready items of the python path:
    `cleaned = [clean_param(p) for p in items if p.strip()]` followed by
    `cleaned = [p for p in cleaned if p]`. -/
def cleanedItems (params : List Char) : List (List Char) :=
  (((splitTopLevelCommas params).filter (fun p => pyStrip p ≠ [])).map clean_param).filter
    (fun p => p ≠ [])

/-- Comma-join of the cleaned items (`','.join(cleaned)`). -/
def joinCommas (ps : List (List Char)) : List Char :=
  (ps.intersperse [',']).flatten

/-- The python path of `normalize_signature`:
    `print(f"{name}({','.join(cleaned)})")`. -/
def pyNormalizeL (name params : List Char) : List Char :=
  name ++ '(' :: (joinCommas (cleanedItems params)) ++ [')']

/-- `normalize_signature` from `get-selectors.sh`: empty raw parameters print
    `name()` directly; otherwise the python3 path produces the signature.
    (The python3-absent fallback is `bashNormalizeL` below, compared against
    this path where the source offers both.) -/
def normalize_signature (name params : String) : String :=
  if params = "" then name ++ "()"
  else ⟨pyNormalizeL name.data params.data⟩

/-- `tr -s ' '` of the bash fallback: squeeze runs of the space character
    (only `' '`, unlike the python path's `\s+`). -/
def squeezeSpaces : List Char → List Char
  | [] => []
  | [c] => [c]
  | c :: c2 :: cs =>
    if c = ' ' && c2 = ' ' then squeezeSpaces (c2 :: cs) else c :: squeezeSpaces (c2 :: cs)

/-- `sed -E 's/^ *//; s/ *$//'` of the bash fallback: strip leading and
    trailing spaces (only `' '`, not tabs). -/
def sedStripSpaces (l : List Char) : List Char :=
  ((l.dropWhile (fun c => c = ' ')).reverse.dropWhile (fun c => c = ' ')).reverse

/-- Split on every comma, keeping empty fields. -/
def splitCommaAll : List Char → List (List Char)
  | [] => [[]]
  | c :: cs =>
    if c = ',' then [] :: splitCommaAll cs
    else
      match splitCommaAll cs with
      | [] => [[c]]
      | h :: t => (c :: h) :: t

/-- `IFS=',' read -r -a parts <<< "$cleaned"`: comma-separated fields; a single
    trailing delimiter terminates the last field without creating a trailing
    empty field. -/
def bashFields (l : List Char) : List (List Char) :=
  match l with
  | [] => []
  | _ =>
    if l.getLast? = some ',' then splitCommaAll l.dropLast else splitCommaAll l

/-- `${p%% *}`: remove the longest suffix matching `" *"`, i.e. keep the
    prefix before the first space. -/
def firstWord (p : List Char) : List Char :=
  p.takeWhile (fun c => c ≠ ' ')

/-- The bash fallback path of `normalize_signature` (used when python3 is
    absent): keyword removal and space squeezing on the whole parameter list,
    strip, split on every comma, strip each part, skip empty parts, and keep
    only the first word of each part. -/
def bashNormalizeL (name params : List Char) : List Char :=
  name ++ '(' ::
    joinCommas
      ((bashFields (sedStripSpaces (squeezeSpaces (removeKws params)))).foldr
        (fun p acc =>
          if sedStripSpaces p = [] then acc else firstWord (sedStripSpaces p) :: acc) []) ++
    [')']

/-- The core of the awk extraction patterns, positioned right after the literal
    `function`: `[[:space:]]+([A-Za-z0-9_]+)[[:space:]]*\(([^)]*)\)`. The
    character classes involved (whitespace / word / parenthesis) are disjoint,
    so greedy matching of each piece is the unique match at this position.
    Returns the two captures `(name, params)`; the parameter capture is
    `[^)]*`, the run of characters before the first closing parenthesis. -/
def matchSigTail (l : List Char) : Option (List Char × List Char) :=
  if l.takeWhile isPySpace = [] then none
  else if (l.dropWhile isPySpace).takeWhile isWordChar = [] then none
  else
    match ((l.dropWhile isPySpace).dropWhile isWordChar).dropWhile isPySpace with
    | '(' :: r4 =>
      match r4.dropWhile (fun c => c ≠ ')') with
      | ')' :: _ =>
        some ((l.dropWhile isPySpace).takeWhile isWordChar, r4.takeWhile (fun c => c ≠ ')'))
      | _ => none
    | _ => none

/-- Leftmost match of
    `function[[:space:]]+([A-Za-z0-9_]+)[[:space:]]*\(([^)]*)\)` in a line
    (rule 3 of the awk program). -/
def scanFunMatches : List Char → Option (List Char × List Char)
  | [] => none
  | c :: cs =>
    match
      (if "function".data.isPrefixOf (c :: cs) then matchSigTail ((c :: cs).drop 8) else none)
    with
    | some r => some r
    | none => scanFunMatches cs

/-- Leftmost match of
    `#define[[:space:]]+function[[:space:]]+([A-Za-z0-9_]+)[[:space:]]*\(([^)]*)\)`
    in a line (rule 2 of the awk program). -/
def scanDefineMatches : List Char → Option (List Char × List Char)
  | [] => none
  | c :: cs =>
    match
      (if "#define".data.isPrefixOf (c :: cs) then
        if ((c :: cs).drop 7).takeWhile isPySpace = [] then none
        else if "function".data.isPrefixOf (((c :: cs).drop 7).dropWhile isPySpace) then
          matchSigTail ((((c :: cs).drop 7).dropWhile isPySpace).drop 8)
        else none
      else none)
    with
    | some r => some r
    | none => scanDefineMatches cs

/-- Test for `/^[[:space:]]*\/\//` (awk rule 1: skip comment lines). -/
def isCommentLine (l : List Char) : Bool :=
  "//".data.isPrefixOf (l.dropWhile isPySpace)

/-- Test for `/#define[[:space:]]+function/` (guard of awk rule 2). -/
def hasDefineFun : List Char → Bool
  | [] => false
  | c :: cs =>
    ("#define".data.isPrefixOf (c :: cs) &&
      (let r := (c :: cs).drop 7
       !(r.takeWhile isPySpace).isEmpty && "function".data.isPrefixOf (r.dropWhile isPySpace)))
    || hasDefineFun cs

/-- Test for `/[[:space:]]function[[:space:]]/` (guard of awk rule 3). -/
def hasSpFnSp : List Char → Bool
  | [] => false
  | c :: cs =>
    (isPySpace c && "function".data.isPrefixOf cs &&
      (match cs.drop 8 with
       | d :: _ => isPySpace d
       | [] => false))
    || hasSpFnSp cs

/-- Per-line behavior of the awk program in `extract_from_file`: comment lines
    are skipped; a `#define function` line is matched with the Huff pattern
    (and `next` prevents fallthrough even when the capture fails); otherwise a
    line containing ` function ` is matched with the Solidity pattern. -/
def extractLine (line : List Char) : Option (List Char × List Char) :=
  if isCommentLine line then none
  else if hasDefineFun line then scanDefineMatches line
  else if hasSpFnSp line then scanFunMatches line
  else none

/-- `extract_from_file`: the name|params pairs printed for each line of the
    input file (the reading loop splits each printed line back into the same
    two strings, since names contain no `|`). -/
def extract_from_file (lines : List String) : List (String × String) :=
  lines.filterMap (fun s => (extractLine s.data).map (fun np => (⟨np.1⟩, ⟨np.2⟩)))

/-- An argument to `get-selectors.sh`: an existing file (its lines) or a
    literal signature string. -/
inductive ScriptArg where
  | file (lines : List String)
  | literal (s : String)
deriving DecidableEq

/-- The collection loop of `get-selectors.sh`: file arguments contribute the
    normalized signature of every extracted declaration (declarations with an
    empty name are skipped, though extraction never produces one); literal
    arguments are appended verbatim, without any normalization. -/
def collectSignatures (args : List ScriptArg) : List String :=
  (args.map fun a =>
    match a with
    | .file ls => ((extract_from_file ls).filter (fun np => np.1 ≠ "")).map
        (fun np => normalize_signature np.1 np.2)
    | .literal s => [s]).flatten

/-- The main loop of `get-selectors.sh` up to the point where selectors are
    printed: if no signatures were collected the script dies with
    `no function signatures found`; otherwise every collected signature is
    passed to the external `cast sig` and printed — with no duplicate
    detection and no further validation. -/
def processArgs (args : List ScriptArg) : Except String (List String) :=
  let sigs := collectSignatures args
  if sigs = [] then .error "no function signatures found" else .ok sigs

/-- Modelled from the spec: the tagged slot variant of §3/§9
    (`Slot = Empty | Direct(Handler) | Chain(List<(Selector, Handler)>)`);
    the dispatch-table data structure is described only in prose and in the
    intentionally incomplete Huff pseudocode of the article, so it is absent
    from the source tree. -/
inductive SlotEntry (H : Type) where
  | emptySlot : SlotEntry H
  | direct : H → SlotEntry H
  | chain : List (Nat × H) → SlotEntry H
deriving DecidableEq

/-- Modelled from the spec: the Slot Index `selector & mask` with
    `mask = 2^k - 1` (§3); in the article this is the hardcoded `0x3f and`. -/
def slotIndex (s k : Nat) : Nat :=
  s &&& (2 ^ k - 1)

/-- Ascending-by-selector ordering of a slot's pairs (§4.3: construction
    order = ascending selector numeric value). -/
def sortPairs {H : Type} (l : List (Nat × H)) : List (Nat × H) :=
  l.insertionSort (fun a b => a.1 ≤ b.1)

/-- Modelled from the spec: the selectors of the input mapping that fall into
    slot `i`, in chain order (§4.3). -/
def slotPairs {H : Type} (k : Nat) (m : List (Nat × H)) (i : Nat) : List (Nat × H) :=
  sortPairs (m.filter (fun p => decide (slotIndex p.1 k = i)))

/-- Modelled from the spec: zero matches → `EMPTY`, one match → `DIRECT`,
    two or more → `CHAIN` (§4.3). -/
def mkEntry {H : Type} : List (Nat × H) → SlotEntry H
  | [] => .emptySlot
  | [p] => .direct p.2
  | ps => .chain ps

/-- Modelled from the spec: table construction (§4.3) — for each slot index
    `0..2^k-1`, gather the selectors mapping to it and classify the entry.
    Absent from the source tree: the article hand-places its jump table. -/
def buildTable {H : Type} (k : Nat) (m : List (Nat × H)) : List (SlotEntry H) :=
  (List.range (2 ^ k)).map (fun i => mkEntry (slotPairs k m i))

/-- Modelled from the spec: lookup (§4.4) — mask the selector, read the slot;
    `EMPTY` → no matching function, `DIRECT` → that handler unconditionally,
    `CHAIN` → first exact selector match in chain order, else no matching
    function. -/
def lookupTable {H : Type} (k : Nat) (t : List (SlotEntry H)) (s : Nat) : Option H :=
  match t[slotIndex s k]? with
  | some .emptySlot => none
  | some (.direct h) => some h
  | some (.chain ps) => (ps.find? (fun p => decide (p.1 = s))).map Prod.snd
  | none => none

/-- Modelled from the spec: the maximum slot chain length of mask width `k`
    over a selector set (§4.2: "compute the multiset of slot occupancy
    counts", judged by its maximum). -/
def maxChainLen (k : Nat) (sels : List Nat) : Nat :=
  ((List.range (2 ^ k)).map
    (fun i => (sels.filter (fun s => decide (slotIndex s k = i))).length)).foldr max 0

/-- Modelled from the spec: the candidate mask widths, from `kLow` up to and
    including `kMax` (§4.2). -/
def candidateKs (kLow kMax : Nat) : List Nat :=
  List.range' kLow (kMax + 1 - kLow)

/-- Modelled from the spec: `ceil(log2 N)` (§4.2), as the smallest `k` with
    `N ≤ 2^k` (searched structurally so it is kernel-computable). -/
def clog2 (n : Nat) : Nat :=
  ((List.range (n + 1)).find? (fun k => decide (n ≤ 2 ^ k))).getD n

/-- Modelled from the spec: mask-width selection (§4.2) — evaluate candidates
    from `ceil(log2 N)` up to the configured maximum; pick the smallest width
    whose maximum chain length meets the threshold; otherwise pick the width
    with the smallest maximum chain length (ties → smallest width) and report
    `ThresholdUnsatisfiable` as the boolean warning component. The article
    performs this search manually ("trial and error"); no such code exists in
    the source tree. -/
def selectMaskWidth (sels : List Nat) (threshold kMax : Nat) : Nat × Bool :=
  match (candidateKs (clog2 sels.length) kMax).find?
      (fun k => decide (maxChainLen k sels ≤ threshold)) with
  | some k => (k, false)
  | none =>
    ((candidateKs (clog2 sels.length) kMax).foldl
      (fun best k => if maxChainLen k sels < maxChainLen best sels then k else best)
      (clog2 sels.length),
      true)

/-- Modelled from the spec: the declarative characterization of §4.2 that
    `selectMaskWidth` must satisfy — the returned width lies in the candidate
    range; without a warning it is the smallest candidate meeting the
    threshold; with a `ThresholdUnsatisfiable` warning no candidate meets the
    threshold and the returned width minimizes the maximum chain length,
    ties broken by the smallest width. -/
def selectMaskSpec (sels : List Nat) (threshold kMax : Nat) : Prop :=
  (clog2 sels.length ≤ (selectMaskWidth sels threshold kMax).1 ∧
    (selectMaskWidth sels threshold kMax).1 ≤ kMax) ∧
  ((selectMaskWidth sels threshold kMax).2 = false →
    maxChainLen (selectMaskWidth sels threshold kMax).1 sels ≤ threshold ∧
    ∀ k, clog2 sels.length ≤ k → k < (selectMaskWidth sels threshold kMax).1 →
      threshold < maxChainLen k sels) ∧
  ((selectMaskWidth sels threshold kMax).2 = true →
    (∀ k, clog2 sels.length ≤ k → k ≤ kMax → threshold < maxChainLen k sels) ∧
    (∀ k, clog2 sels.length ≤ k → k ≤ kMax →
      maxChainLen (selectMaskWidth sels threshold kMax).1 sels ≤ maxChainLen k sels) ∧
    (∀ k, clog2 sels.length ≤ k → k ≤ kMax →
      maxChainLen k sels = maxChainLen (selectMaskWidth sels threshold kMax).1 sels →
      (selectMaskWidth sels threshold kMax).1 ≤ k))

/-- Modelled from the spec: the slots in whose resolution path (direct binding
    or chain position) the selector `s` occurs (§8). -/
def slotsResolving {H : Type} (k : Nat) (m : List (Nat × H)) (s : Nat) : List Nat :=
  (List.range (2 ^ k)).filter (fun i => decide (s ∈ (slotPairs k m i).map Prod.fst))


/-- A type token in canonical form: non-empty, whitespace-free, unaffected by
    keyword removal, with balanced parentheses (under the clamped depth
    semantics) and no top-level comma. This captures what "already in
    canonical form" means for a single parameter type of a canonical
    signature. -/
def TypeTokenOk (t : List Char) : Prop :=
  t ≠ [] ∧ (∀ c ∈ t, isPySpace c = false) ∧ removeKws t = t ∧
    depthRun 0 t = 0 ∧ noTLComma 0 t = true

instance : DecidablePred TypeTokenOk := fun t => by
  unfold TypeTokenOk
  infer_instance

/-- All whitespace characters of `l` are plain spaces (the regime in which
    `tr -s ' '` and sed's space stripping agree with python's `\s`-based
    operations). -/
def onlySp (l : List Char) : Prop :=
  ∀ c ∈ l, isPySpace c = true → c = ' '

/-- The shape of one parameter for the path-equivalence statement: optional
    leading spaces, a type word, optionally (after one or more spaces) a name
    word, and optional trailing spaces. `sep` counts the spaces between the
    two words beyond the first. -/
structure ParamShape where
  lead : Nat
  w1 : List Char
  sep : Nat
  w2 : Option (List Char)
  trail : Nat

/-- A word of a parameter: non-empty, with no whitespace, comma or
    parenthesis. -/
def WordOk (w : List Char) : Prop :=
  w ≠ [] ∧ ∀ c ∈ w, isPySpace c = false ∧ c ≠ ',' ∧ c ≠ '(' ∧ c ≠ ')'

instance : DecidablePred WordOk := fun w => by
  unfold WordOk
  infer_instance

/-- Validity of the optional second word. -/
def WordOk2 : Option (List Char) → Prop
  | none => True
  | some w => WordOk w

instance : DecidablePred WordOk2 := fun o =>
  match o with
  | none => isTrue trivial
  | some w => (inferInstance : Decidable (WordOk w))

/-- Validity of a parameter shape: both words (when present) are words. -/
def ShapeOk (p : ParamShape) : Prop :=
  WordOk p.w1 ∧ WordOk2 p.w2

instance : DecidablePred ShapeOk := fun p => by
  unfold ShapeOk
  infer_instance

/-- The parameter without its leading and trailing spaces. -/
def coreOf (p : ParamShape) : List Char :=
  p.w1 ++
    (match p.w2 with
     | none => []
     | some w => List.replicate (p.sep + 1) ' ' ++ w)

/-- The raw text of a parameter shape. -/
def renderParam (p : ParamShape) : List Char :=
  List.replicate p.lead ' ' ++ (coreOf p ++ List.replicate p.trail ' ')

/-- The parameter core with its inner space run collapsed to one space. -/
def collapsedCore (p : ParamShape) : List Char :=
  p.w1 ++
    (match p.w2 with
     | none => []
     | some w => ' ' :: w)

/-- Zero or one space, depending on whether a space run was present. -/
def spOpt (n : Nat) : List Char :=
  List.replicate (min n 1) ' '

/-!
Helper lemmas shared by the claim theorems.
-/

/-- The python path always produces `name ++ "(" ++ <comma-joined types> ++ ")"`. -/
theorem pyNormalizeL_decomp (n p : List Char) :
    pyNormalizeL n p = n ++ ['('] ++ joinCommas (cleanedItems p) ++ [')'] := by
  simp [pyNormalizeL]

/-- Full characterization of `normalize_signature`: for every name and raw
    parameter string (the empty one included) it returns the name, an opening
    parenthesis, the comma-joined cleaned items and a closing parenthesis. -/
theorem normalize_signature_eq (name params : String) :
    (normalize_signature name params).data =
      name.data ++ ['('] ++ joinCommas (cleanedItems params.data) ++ [')'] := by
  obtain ⟨nd⟩ := name
  obtain ⟨pd⟩ := params
  by_cases h : pd = []
  · subst h
    unfold normalize_signature
    rw [if_pos rfl]
    rw [String.data_append, List.append_assoc, List.append_assoc]
    congr 1
  · have hne : (⟨pd⟩ : String) ≠ "" := by
      intro hcon
      exact h (congrArg String.data hcon)
    unfold normalize_signature
    rw [if_neg hne]
    exact pyNormalizeL_decomp nd pd

/-- A parameter capture of the awk pattern core is `takeWhile (· ≠ ')')`, so
    it never contains a closing parenthesis. -/
theorem matchSigTail_no_rparen (l name params : List Char)
    (h : matchSigTail l = some (name, params)) : ')' ∉ params := by
  unfold matchSigTail at h
  split_ifs at h
  split at h
  · split at h
    · rw [Option.some.injEq, Prod.mk.injEq] at h
      intro hmem
      have := List.mem_takeWhile_imp (h.2 ▸ hmem)
      simp at this
    · exact absurd h (by simp)
  · exact absurd h (by simp)

/-- `scanFunMatches` only returns captures produced by `matchSigTail`. -/
theorem scanFunMatches_no_rparen (l name params : List Char)
    (h : scanFunMatches l = some (name, params)) : ')' ∉ params := by
  induction l with
  | nil => exact absurd h (by simp [scanFunMatches])
  | cons c cs ih =>
    unfold scanFunMatches at h
    split at h
    case h_1 r heq =>
      split_ifs at heq
      rw [Option.some.injEq] at h
      exact matchSigTail_no_rparen _ _ _ (h ▸ heq)
    case h_2 => exact ih h

/-- `scanDefineMatches` only returns captures produced by `matchSigTail`. -/
theorem scanDefineMatches_no_rparen (l name params : List Char)
    (h : scanDefineMatches l = some (name, params)) : ')' ∉ params := by
  induction l with
  | nil => exact absurd h (by simp [scanDefineMatches])
  | cons c cs ih =>
    unfold scanDefineMatches at h
    split at h
    case h_1 r heq =>
      split_ifs at heq
      rw [Option.some.injEq] at h
      exact matchSigTail_no_rparen _ _ _ (h ▸ heq)
    case h_2 => exact ih h

/-- Any parameter string extracted from a line contains no `')'`. -/
theorem extractLine_no_rparen (line name params : List Char)
    (h : extractLine line = some (name, params)) : ')' ∉ params := by
  unfold extractLine at h
  split_ifs at h
  · exact scanDefineMatches_no_rparen _ _ _ h
  · exact scanFunMatches_no_rparen _ _ _ h

/-!
Claim theorems.
-/

/-- Claim C1: canonicalization removes the data-location/indexing keywords and
    parameter names, collapses whitespace, splits the parameter list on
    top-level commas (tracking parenthesis nesting depth, so commas inside
    tuple types do not split), and returns `name(type,type,...)`; in
    particular `"foo(uint256 amount, address recipient)"` canonicalizes to
    `"foo(uint256,address)"` (and a nested tuple parameter keeps its internal
    comma). -/
theorem claim_C1_canonicalization :
    (∀ name params : String,
      (normalize_signature name params).data =
        name.data ++ ['('] ++ joinCommas (cleanedItems params.data) ++ [')']) ∧
    normalize_signature "foo" "uint256 amount, address recipient" = "foo(uint256,address)" ∧
    normalize_signature "f" "(uint256,address) p, uint256 x" = "f((uint256,address),uint256)" :=
  ⟨normalize_signature_eq, by decide, by decide⟩

/-- Claim C2 counterexample: the claim says canonicalization of an unparseable
    signature (unbalanced parentheses, empty name) fails with a
    `MalformedSignature` error, but the source's `normalize_signature` cannot
    fail: on the unbalanced parameter list `"(("` it succeeds and returns the
    garbage signature `"foo((()"`, and an empty name is passed through,
    yielding `"(uint256)"`. No `MalformedSignature` (or any other
    canonicalization error) exists in the source. -/
theorem claim_C2_counterexample :
    normalize_signature "foo" "((" = "foo((()" ∧
    normalize_signature "" "uint256" = "(uint256)" :=
  ⟨by decide, by decide⟩

/-- Claim C2 amended: canonicalization never fails — for every name and every
    raw parameter string (unbalanced parentheses and empty names included) it
    totally computes a `name(...)`-shaped string; unbalanced closing
    parentheses are tolerated by clamping the nesting depth at zero. -/
theorem claim_C2_amended_total :
    ∀ name params : String, ∃ ts : List (List Char),
      (normalize_signature name params).data = name.data ++ ['('] ++ joinCommas ts ++ [')'] :=
  fun n p => ⟨cleanedItems p.data, normalize_signature_eq n p⟩

/-- Claim C3 counterexample: the claim says two input entries canonicalizing
    to the identical signature raise `DuplicateSignature`; but feeding the
    script a file whose two declarations `bar()` and `bar( )` both
    canonicalize to `"bar()"` succeeds, returning the duplicate signature
    twice — no error exists for duplicates in the source. -/
theorem claim_C3_counterexample :
    normalize_signature "bar" "" = "bar()" ∧
    normalize_signature "bar" " " = "bar()" ∧
    processArgs [.file ["#define function bar()", "#define function bar( )"]] =
      .ok ["bar()", "bar()"] :=
  ⟨by decide, by decide, rfl⟩

/-- Claim C3 amended: the script performs no duplicate detection — whenever
    the collected signature list is non-empty (duplicates included), the main
    loop succeeds and processes every collected entry in order. -/
theorem claim_C3_amended (args : List ScriptArg) (h : collectSignatures args ≠ []) :
    processArgs args = .ok (collectSignatures args) := by
  unfold processArgs
  rw [if_neg h]

/-- Witness for the amended claim C3 at the duplicate `bar()` input. -/
theorem claim_C3_witness :
    collectSignatures [ScriptArg.file ["#define function bar()", "#define function bar( )"]] ≠ [] ∧
    processArgs [ScriptArg.file ["#define function bar()", "#define function bar( )"]] =
      .ok (collectSignatures
        [ScriptArg.file ["#define function bar()", "#define function bar( )"]]) :=
  ⟨by decide, claim_C3_amended _ (by decide)⟩

/-- Claim C4 counterexample: the claim says the empty signature set is a valid
    degenerate input processed with no error, but the script dies with
    `no function signatures found` when its inputs yield no signatures (here:
    a file with no function declaration). -/
theorem claim_C4_counterexample :
    extract_from_file ["nothing here"] = [] ∧
    processArgs [.file ["nothing here"]] = .error "no function signatures found" :=
  ⟨rfl, rfl⟩

/-- Claim C4 amended: a single-entry signature set is a valid degenerate input
    processed without error, but an empty signature set is rejected by the
    script with `no function signatures found`; in the spec-modelled table
    builder an empty selector set yields the all-`EMPTY` table for every mask
    width `k`. -/
theorem claim_C4_amended :
    (∀ s : String, processArgs [ScriptArg.literal s] = .ok [s]) ∧
    (∀ ls : List String, extract_from_file ls = [] →
      processArgs [ScriptArg.file ls] = .error "no function signatures found") ∧
    (∀ (H : Type) (k : Nat),
      buildTable k ([] : List (Nat × H)) = List.replicate (2 ^ k) SlotEntry.emptySlot) := by
  refine ⟨fun s => rfl, fun ls h => by simp [processArgs, collectSignatures, h], fun H k => ?_⟩
  have hlen : (buildTable k ([] : List (Nat × H))).length = 2 ^ k := by
    simp [buildTable]
  have hmem : ∀ e ∈ buildTable k ([] : List (Nat × H)), e = SlotEntry.emptySlot := by
    intro e he
    simp only [buildTable, List.mem_map] at he
    obtain ⟨i, -, rfl⟩ := he
    simp [slotPairs, sortPairs, mkEntry]
  exact List.eq_replicate_iff.mpr ⟨hlen, hmem⟩

/-- Witness for the amended claim C4 at a concrete declaration-free file. -/
theorem claim_C4_witness :
    extract_from_file ["pragma solidity"] = [] ∧
    processArgs [ScriptArg.file ["pragma solidity"]] = .error "no function signatures found" :=
  ⟨rfl, claim_C4_amended.2.1 ["pragma solidity"] rfl⟩

/-- Claim C10: `extract_from_file` captures a declaration's parameter list
    with the regex class `[^)]*` (the run of characters before the first
    closing parenthesis), so no extracted parameter string contains `')'`;
    consequently a declaration with a nested tuple type is truncated at the
    tuple's closing parenthesis, as on the concrete line shown. -/
theorem claim_C10_extract_truncates :
    (∀ line name params : List Char,
      extractLine line = some (name, params) → ')' ∉ params) ∧
    extractLine "  function f((uint256,address) p) external".data =
      some ("f".data, "(uint256,address".data) :=
  ⟨extractLine_no_rparen, by decide⟩

/-- Witness for claim C10 at a concrete Huff declaration with a tuple type. -/
theorem claim_C10_witness :
    extractLine "#define function tf((uint256,bool) x, address to) view returns ()".data =
      some ("tf".data, "(uint256,bool".data) ∧
    ')' ∉ "(uint256,bool".data :=
  ⟨by decide,
    claim_C10_extract_truncates.1
      "#define function tf((uint256,bool) x, address to) view returns ()".data
      "tf".data "(uint256,bool".data (by decide)⟩

theorem dropWhile_eq_self_of_not (p : Char → Bool) (l : List Char)
    (h : ∀ c ∈ l, p c = false) : l.dropWhile p = l := by
  cases l with
  | nil => rfl
  | cons c cs =>
    rw [List.dropWhile_cons, if_neg]
    simp [h c (by simp)]

theorem pyStrip_id (t : List Char) (h : ∀ c ∈ t, isPySpace c = false) : pyStrip t = t := by
  unfold pyStrip
  rw [dropWhile_eq_self_of_not _ _ h]
  rw [dropWhile_eq_self_of_not _ _ (fun c hc => h c (List.mem_reverse.mp hc))]
  exact List.reverse_reverse t

theorem collapseWs_id (t : List Char) (h : ∀ c ∈ t, isPySpace c = false) : collapseWs t = t := by
  induction t with
  | nil => rfl
  | cons c cs ih =>
    cases cs with
    | nil =>
      unfold collapseWs
      rw [if_neg]
      simp [h c (by simp)]
    | cons c2 cs2 =>
      unfold collapseWs
      rw [if_neg]
      · rw [ih (fun x hx => h x (List.mem_cons_of_mem c hx))]
      · simp [h c (by simp)]

theorem lastTLSpaceAux_none (t : List Char) : ∀ (i d : Nat),
    (∀ c ∈ t, isPySpace c = false) → lastTLSpaceAux i d none t = none := by
  induction t with
  | nil => intro i d _; rfl
  | cons c cs ih =>
    intro i d h
    unfold lastTLSpaceAux
    split_ifs with h1 h2 h3
    · exact ih _ _ (fun x hx => h x (List.mem_cons_of_mem c hx))
    · exact ih _ _ (fun x hx => h x (List.mem_cons_of_mem c hx))
    · rw [Bool.and_eq_true] at h3
      rw [h c (by simp)] at h3
      exact absurd h3.1 (by simp)
    · exact ih _ _ (fun x hx => h x (List.mem_cons_of_mem c hx))

theorem lastTLSpace_none (t : List Char) (h : ∀ c ∈ t, isPySpace c = false) :
    lastTLSpace t = none :=
  lastTLSpaceAux_none t 0 0 h

theorem clean_param_id (t : List Char) (hne : t ≠ [])
    (hns : ∀ c ∈ t, isPySpace c = false) (hkw : removeKws t = t) : clean_param t = t := by
  unfold clean_param
  rw [if_neg hne, hkw, collapseWs_id t hns, pyStrip_id t hns, if_neg hne,
    lastTLSpace_none t hns]


theorem splitTLAux_token (t : List Char) : ∀ (d : Nat) (buf r : List Char),
    noTLComma d t = true →
    splitTLAux d buf (t ++ r) = splitTLAux (depthRun d t) (t.reverse ++ buf) r := by
  induction t with
  | nil => intro d buf r _; simp [depthRun]
  | cons c cs ih =>
    intro d buf r h
    simp only [noTLComma] at h
    rw [List.cons_append]
    simp only [splitTLAux, depthRun]
    rw [List.reverse_cons, List.append_assoc, List.singleton_append]
    split_ifs at h ⊢ with hc
    exact ih (depthStep d c) (c :: buf) r h

theorem joinCommas_single (t : List Char) : joinCommas [t] = t := by
  simp [joinCommas]

theorem joinCommas_cons (t t2 : List Char) (ts : List (List Char)) :
    joinCommas (t :: t2 :: ts) = t ++ ',' :: joinCommas (t2 :: ts) := by
  simp [joinCommas, List.intersperse]

theorem splitJoin (ts : List (List Char))
    (h : ∀ t ∈ ts, t ≠ [] ∧ (∀ c ∈ t, isPySpace c = false) ∧
      depthRun 0 t = 0 ∧ noTLComma 0 t = true) :
    splitTopLevelCommas (joinCommas ts) = ts := by
  induction ts with
  | nil => rfl
  | cons t ts' ih =>
    obtain ⟨hne, hns, hd, hc⟩ := h t (by simp)
    cases ts' with
    | nil =>
      rw [joinCommas_single]
      unfold splitTopLevelCommas
      have h1 := splitTLAux_token t 0 [] [] hc
      rw [List.append_nil] at h1
      rw [List.append_nil] at h1
      rw [h1, hd]
      unfold splitTLAux
      rw [if_neg (by simpa using hne), List.reverse_reverse, pyStrip_id t hns]
    | cons t2 ts'' =>
      rw [joinCommas_cons]
      unfold splitTopLevelCommas
      have h1 := splitTLAux_token t 0 [] (',' :: joinCommas (t2 :: ts'')) hc
      rw [List.append_nil] at h1
      rw [h1, hd]
      unfold splitTLAux
      rw [if_pos (by simp), List.reverse_reverse, pyStrip_id t hns]
      exact congrArg (t :: ·) (ih (fun x hx => h x (List.mem_cons_of_mem t hx)))


/-- Splitting and cleaning a comma-join of canonical type tokens returns the
    tokens unchanged. -/
theorem cleanedItems_joinCommas (ts : List (List Char)) (h : ∀ t ∈ ts, TypeTokenOk t) :
    cleanedItems (joinCommas ts) = ts := by
  unfold cleanedItems
  rw [splitJoin ts (fun t ht => ⟨(h t ht).1, (h t ht).2.1, (h t ht).2.2.2.1, (h t ht).2.2.2.2⟩)]
  have hf1 : List.filter (fun p => decide (pyStrip p ≠ [])) ts = ts :=
    List.filter_eq_self.mpr (fun t ht => by
      rw [pyStrip_id t (h t ht).2.1]
      simpa using (h t ht).1)
  rw [hf1]
  have hmap : ts.map clean_param = ts := by
    have hcg := List.map_congr_left (l := ts) (f := clean_param) (g := id) (fun t ht =>
      clean_param_id t (h t ht).1 (h t ht).2.1 (h t ht).2.2.1)
    rw [hcg, List.map_id]
  rw [hmap]
  exact List.filter_eq_self.mpr (fun t ht => by simpa using (h t ht).1)

/-- Claim C8: canonicalization is idempotent — a signature already in
    canonical form, i.e. `name(t1,...,tn)` with every `ti` a canonical type
    token (`TypeTokenOk`), is returned unchanged by `normalize_signature`. -/
theorem claim_C8_idempotence (name : String) (ts : List (List Char))
    (h : ∀ t ∈ ts, TypeTokenOk t) :
    (normalize_signature name ⟨joinCommas ts⟩).data =
      name.data ++ ['('] ++ joinCommas ts ++ [')'] := by
  rw [normalize_signature_eq]
  have hd : (⟨joinCommas ts⟩ : String).data = joinCommas ts := rfl
  rw [hd, cleanedItems_joinCommas ts h]

/-- Witness for claim C8 at the canonical signature `foo(uint256,(uint8,bool))`
    (the second token exercising a nested comma). -/
theorem claim_C8_witness :
    (∀ t ∈ [("uint256".data : List Char), "(uint8,bool)".data], TypeTokenOk t) ∧
    (normalize_signature "foo" ⟨joinCommas ["uint256".data, "(uint8,bool)".data]⟩).data =
      "foo".data ++ ['('] ++ joinCommas ["uint256".data, "(uint8,bool)".data] ++ [')'] :=
  ⟨by decide, claim_C8_idempotence "foo" _ (by decide)⟩



theorem squeeze_eq_collapse (l : List Char) (h : onlySp l) :
    squeezeSpaces l = collapseWs l := by
  induction l with
  | nil => rfl
  | cons c cs ih =>
    cases cs with
    | nil =>
      show squeezeSpaces [c] = collapseWs [c]
      unfold squeezeSpaces collapseWs
      split_ifs with h1
      · rw [h c (by simp) h1]
      · rfl
    | cons c2 cs2 =>
      unfold squeezeSpaces collapseWs
      have hcs : onlySp (c2 :: cs2) := fun x hx => h x (List.mem_cons_of_mem c hx)
      by_cases h1 : isPySpace c = true
      · have hc : c = ' ' := h c (by simp) h1
        by_cases h2 : isPySpace c2 = true
        · have hc2 : c2 = ' ' := h c2 (by simp) h2
          rw [if_pos (by simp [hc, hc2]), if_pos h1, if_pos h2]
          exact ih hcs
        · have hc2 : c2 ≠ ' ' := fun hq => h2 (hq ▸ (by decide))
          rw [if_neg (by simp [hc2]), if_pos h1, if_neg h2]
          rw [ih hcs, hc]
      · have hc : c ≠ ' ' := fun hq => h1 (hq ▸ (by decide))
        rw [if_neg (by simp [hc]), if_neg h1]
        rw [ih hcs]


theorem dropWhile_congr_mem (p q : Char → Bool) (l : List Char) (h : ∀ c ∈ l, p c = q c) :
    l.dropWhile p = l.dropWhile q := by
  induction l with
  | nil => rfl
  | cons c cs ih =>
    rw [List.dropWhile_cons, List.dropWhile_cons, h c (by simp)]
    split_ifs with h1
    · exact ih (fun x hx => h x (List.mem_cons_of_mem c hx))
    · rfl

theorem sedStrip_eq_pyStrip (l : List Char) (h : onlySp l) :
    sedStripSpaces l = pyStrip l := by
  have hpq : ∀ c ∈ l, (decide (c = ' ') : Bool) = isPySpace c := by
    intro c hc
    by_cases hsp : isPySpace c = true
    · rw [hsp, h c hc hsp]
      decide
    · rw [Bool.eq_false_iff.mpr hsp, decide_eq_false]
      intro hq
      exact hsp (hq ▸ (by decide))
  unfold sedStripSpaces pyStrip
  rw [dropWhile_congr_mem _ _ l hpq]
  rw [dropWhile_congr_mem (fun c => decide (c = ' ')) isPySpace _ (fun c hc =>
    hpq c ((List.dropWhile_sublist isPySpace).subset (List.mem_reverse.mp hc)))]

theorem dropWhile_sp_replicate (m : Nat) (x : List Char) :
    List.dropWhile isPySpace (List.replicate m ' ' ++ x) = List.dropWhile isPySpace x := by
  induction m with
  | zero => rw [List.replicate_zero, List.nil_append]
  | succ k ih =>
    rw [List.replicate_succ, List.cons_append, List.dropWhile_cons, if_pos (by decide)]
    exact ih

theorem dropWhile_sp_head (x : List Char)
    (h : ∀ c, x.head? = some c → isPySpace c = false) :
    List.dropWhile isPySpace x = x := by
  cases x with
  | nil => rfl
  | cons c cs =>
    rw [List.dropWhile_cons, if_neg]
    rw [h c rfl]
    simp

theorem pyStrip_pad (m n : Nat) (x : List Char)
    (hh : ∀ c, x.head? = some c → isPySpace c = false)
    (hl : ∀ c, x.getLast? = some c → isPySpace c = false) :
    pyStrip (List.replicate m ' ' ++ (x ++ List.replicate n ' ')) = x := by
  unfold pyStrip
  rw [dropWhile_sp_replicate]
  rw [List.dropWhile_append]
  rw [dropWhile_sp_head x hh]
  by_cases hx : x = []
  · subst hx
    simp only [List.isEmpty_nil, if_true, List.nil_append]
    have h0 : List.dropWhile isPySpace (List.replicate n ' ') = [] := by
      have h1 := dropWhile_sp_replicate n []
      rwa [List.append_nil] at h1
    rw [h0]
    rfl
  · rw [if_neg (by simpa using hx)]
    rw [List.reverse_append, List.reverse_replicate]
    rw [dropWhile_sp_replicate]
    rw [dropWhile_sp_head x.reverse (fun c hc => hl c ((List.head?_reverse x) ▸ hc))]
    exact List.reverse_reverse x

theorem pyStrip_edges (x : List Char)
    (hh : ∀ c, x.head? = some c → isPySpace c = false)
    (hl : ∀ c, x.getLast? = some c → isPySpace c = false) :
    pyStrip x = x := by
  have := pyStrip_pad 0 0 x hh hl
  rwa [List.replicate_zero, List.nil_append, List.append_nil] at this




theorem isPySpace_sp : isPySpace ' ' = true := by decide

theorem isPySpace_comma : isPySpace ',' = false := by decide

theorem collapse_word_append (w s : List Char) (hw : ∀ c ∈ w, isPySpace c = false) :
    collapseWs (w ++ s) = w ++ collapseWs s := by
  induction w with
  | nil => rfl
  | cons a w' ih =>
    have ha : isPySpace a = false := hw a (by simp)
    have ih' := ih (fun x hx => hw x (List.mem_cons_of_mem a hx))
    cases w' with
    | nil =>
      cases s with
      | nil => simp [collapseWs, ha]
      | cons b bs =>
        show collapseWs (a :: b :: bs) = a :: collapseWs (b :: bs)
        simp [collapseWs, ha]
    | cons a2 w'' =>
      show collapseWs (a :: a2 :: (w'' ++ s)) = a :: ((a2 :: w'') ++ collapseWs s)
      rw [← ih']
      rw [List.cons_append]
      simp [collapseWs, ha]

theorem collapse_sprun (k : Nat) (s : List Char)
    (hs : ∀ c, s.head? = some c → isPySpace c = false) :
    collapseWs (List.replicate (k + 1) ' ' ++ s) = ' ' :: collapseWs s := by
  induction k with
  | zero =>
    cases s with
    | nil => simp [collapseWs]
    | cons b bs =>
      have hb : isPySpace b = false := hs b rfl
      show collapseWs (' ' :: b :: bs) = ' ' :: collapseWs (b :: bs)
      simp [collapseWs, hb, isPySpace_sp]
  | succ k2 ih =>
    have hrep : List.replicate (k2 + 1 + 1) ' ' ++ s = ' ' :: (List.replicate (k2 + 1) ' ' ++ s) := by
      rw [List.replicate_succ, List.cons_append]
    rw [hrep]
    have hrep2 : List.replicate (k2 + 1) ' ' ++ s = ' ' :: (List.replicate k2 ' ' ++ s) := by
      rw [List.replicate_succ, List.cons_append]
    rw [show collapseWs (' ' :: (List.replicate (k2 + 1) ' ' ++ s)) =
        collapseWs (List.replicate (k2 + 1) ' ' ++ s) by
      rw [hrep2]
      show collapseWs (' ' :: ' ' :: (List.replicate k2 ' ' ++ s)) =
        collapseWs (' ' :: (List.replicate k2 ' ' ++ s))
      simp [collapseWs, isPySpace_sp]]
    exact ih

theorem collapse_replicate_eq (m : Nat) : collapseWs (List.replicate (m + 1) ' ') = [' '] := by
  have h := collapse_sprun m [] (fun c hc => by simp at hc)
  rwa [List.append_nil] at h

theorem collapse_comma_append (a b : List Char) :
    collapseWs (a ++ ',' :: b) = collapseWs a ++ ',' :: collapseWs b := by
  induction a with
  | nil =>
    cases b with
    | nil => simp [collapseWs, isPySpace_comma]
    | cons b1 bs =>
      show collapseWs (',' :: b1 :: bs) = ',' :: collapseWs (b1 :: bs)
      simp [collapseWs, isPySpace_comma]
  | cons x a' ih =>
    rw [List.cons_append]
    cases a' with
    | nil =>
      by_cases hx : isPySpace x = true
      · show collapseWs (x :: ',' :: b) = collapseWs [x] ++ ',' :: collapseWs b
        simp [collapseWs, hx, isPySpace_comma]
        simpa using ih
      · show collapseWs (x :: ',' :: b) = collapseWs [x] ++ ',' :: collapseWs b
        simp [collapseWs, hx, isPySpace_comma]
        simpa using ih
    | cons x2 a'' =>
      rw [List.cons_append] at ih
      rw [List.cons_append]
      show collapseWs (x :: x2 :: (a'' ++ ',' :: b)) =
        collapseWs (x :: x2 :: a'') ++ ',' :: collapseWs b
      by_cases hx : isPySpace x = true
      · by_cases hx2 : isPySpace x2 = true
        · rw [show collapseWs (x :: x2 :: (a'' ++ ',' :: b)) =
              collapseWs (x2 :: (a'' ++ ',' :: b)) by simp [collapseWs, hx, hx2]]
          rw [show collapseWs (x :: x2 :: a'') = collapseWs (x2 :: a'') by
              simp [collapseWs, hx, hx2]]
          exact ih
        · rw [show collapseWs (x :: x2 :: (a'' ++ ',' :: b)) =
              ' ' :: collapseWs (x2 :: (a'' ++ ',' :: b)) by simp [collapseWs, hx, hx2]]
          rw [show collapseWs (x :: x2 :: a'') = ' ' :: collapseWs (x2 :: a'') by
              simp [collapseWs, hx, hx2]]
          rw [ih]
          rfl
      · rw [show collapseWs (x :: x2 :: (a'' ++ ',' :: b)) =
            x :: collapseWs (x2 :: (a'' ++ ',' :: b)) by simp [collapseWs, hx]]
        rw [show collapseWs (x :: x2 :: a'') = x :: collapseWs (x2 :: a'') by
            simp [collapseWs, hx]]
        rw [ih]
        rfl


theorem lastTLSpaceAux_cons (i d : Nat) (acc : Option Nat) (c : Char) (cs : List Char) :
    lastTLSpaceAux i d acc (c :: cs) =
      if c = '(' then lastTLSpaceAux (i + 1) (d + 1) acc cs
      else if c = ')' then lastTLSpaceAux (i + 1) (d - 1) acc cs
      else if isPySpace c && d = 0 then lastTLSpaceAux (i + 1) d (some i) cs
      else lastTLSpaceAux (i + 1) d acc cs := rfl

theorem lastTLSpaceAux_keep (t : List Char) (hns : ∀ c ∈ t, isPySpace c = false) :
    ∀ (i d : Nat) (acc : Option Nat), lastTLSpaceAux i d acc t = acc := by
  induction t with
  | nil => intro i d acc; rfl
  | cons c cs ih =>
    intro i d acc
    have hrest : ∀ x ∈ cs, isPySpace x = false := fun x hx => hns x (List.mem_cons_of_mem c hx)
    unfold lastTLSpaceAux
    split_ifs with h1 h2 h3
    · exact ih hrest _ _ _
    · exact ih hrest _ _ _
    · rw [Bool.and_eq_true] at h3
      rw [hns c (by simp)] at h3
      exact absurd h3.1 (by simp)
    · exact ih hrest _ _ _

theorem lastTLSpaceAux_plain (w : List Char)
    (hw : ∀ c ∈ w, isPySpace c = false ∧ c ≠ '(' ∧ c ≠ ')') :
    ∀ (i : Nat) (acc : Option Nat) (r : List Char),
      lastTLSpaceAux i 0 acc (w ++ r) = lastTLSpaceAux (i + w.length) 0 acc r := by
  induction w with
  | nil => intro i acc r; rw [List.length_nil, Nat.add_zero, List.nil_append]
  | cons c w' ih =>
    intro i acc r
    obtain ⟨hc1, hc2, hc3⟩ := hw c (by simp)
    rw [List.cons_append]
    rw [lastTLSpaceAux_cons]
    rw [if_neg (by simp [hc2]), if_neg (by simp [hc3]), if_neg (by simp [hc1])]
    have harith : i + (c :: w').length = i + 1 + w'.length := by
      rw [List.length_cons]
      omega
    rw [harith, ih (fun x hx => hw x (List.mem_cons_of_mem c hx)) (i + 1) acc r]

theorem lastTLSpace_twoWords (w1 w2 : List Char)
    (h1 : ∀ c ∈ w1, isPySpace c = false ∧ c ≠ '(' ∧ c ≠ ')')
    (h2 : ∀ c ∈ w2, isPySpace c = false) :
    lastTLSpace (w1 ++ ' ' :: w2) = some w1.length := by
  unfold lastTLSpace
  rw [lastTLSpaceAux_plain w1 h1 0 none (' ' :: w2)]
  rw [lastTLSpaceAux_cons]
  rw [if_neg (by decide), if_neg (by decide), if_pos (by simp [isPySpace_sp])]
  rw [lastTLSpaceAux_keep w2 h2]
  rw [Nat.zero_add]

theorem lastTLSpace_plainWord (w : List Char) (h : ∀ c ∈ w, isPySpace c = false) :
    lastTLSpace w = none :=
  lastTLSpaceAux_keep w h 0 0 none

theorem takeWhile_nospace_append (w z : List Char) (hw : ∀ c ∈ w, c ≠ ' ') :
    List.takeWhile (fun c => decide (c ≠ ' ')) (w ++ ' ' :: z) = w := by
  induction w with
  | nil =>
    rw [List.nil_append, List.takeWhile_cons, if_neg (by simp)]
  | cons c w' ih =>
    rw [List.cons_append, List.takeWhile_cons, if_pos (by simp [hw c (by simp)])]
    rw [ih (fun x hx => hw x (List.mem_cons_of_mem c hx))]

theorem takeWhile_nospace_id (w : List Char) (hw : ∀ c ∈ w, c ≠ ' ') :
    List.takeWhile (fun c => decide (c ≠ ' ')) w = w := by
  induction w with
  | nil => rfl
  | cons c w' ih =>
    rw [List.takeWhile_cons, if_pos (by simp [hw c (by simp)])]
    rw [ih (fun x hx => hw x (List.mem_cons_of_mem c hx))]

theorem splitCommaAll_cons (c : Char) (cs : List Char) :
    splitCommaAll (c :: cs) =
      if c = ',' then [] :: splitCommaAll cs
      else
        match splitCommaAll cs with
        | [] => [[c]]
        | h :: t => (c :: h) :: t := rfl

theorem splitCommaAll_commaFree (q : List Char) (hq : ',' ∉ q) : splitCommaAll q = [q] := by
  induction q with
  | nil => rfl
  | cons c cs ih =>
    rw [splitCommaAll_cons]
    rw [if_neg (fun h => hq (List.mem_cons.mpr (Or.inl h.symm)))]
    rw [ih (fun h => hq (List.mem_cons_of_mem c h))]

theorem splitCommaAll_append_comma (q z : List Char) (hq : ',' ∉ q) :
    splitCommaAll (q ++ ',' :: z) = q :: splitCommaAll z := by
  induction q with
  | nil =>
    rw [List.nil_append]
    rw [splitCommaAll_cons]
    rw [if_pos rfl]
  | cons c cs ih =>
    rw [List.cons_append]
    rw [splitCommaAll_cons]
    rw [if_neg (fun h => hq (List.mem_cons.mpr (Or.inl h.symm)))]
    rw [ih (fun h => hq (List.mem_cons_of_mem c h))]

theorem collapse_join (qs : List (List Char)) :
    collapseWs (joinCommas qs) = joinCommas (qs.map collapseWs) := by
  induction qs with
  | nil => rfl
  | cons q qs' ih =>
    cases qs' with
    | nil => rw [joinCommas_single, List.map_cons, List.map_nil, joinCommas_single]
    | cons q2 qs'' =>
      rw [joinCommas_cons, collapse_comma_append, ih]
      simp only [List.map_cons, joinCommas_cons]

theorem squeeze_mem_subset (l : List Char) (c : Char) (hc : c ∈ squeezeSpaces l) : c ∈ l := by
  induction l with
  | nil => exact absurd hc (by simp [squeezeSpaces])
  | cons a as ih =>
    cases as with
    | nil => exact hc
    | cons a2 as2 =>
      unfold squeezeSpaces at hc
      split_ifs at hc with h1
      · exact List.mem_cons_of_mem a (ih hc)
      · rcases List.mem_cons.mp hc with h | h
        · exact h ▸ List.mem_cons_self a _
        · exact List.mem_cons_of_mem a (ih h)


theorem nonspace_ne_sp {c : Char} (h : isPySpace c = false) : c ≠ ' ' := by
  intro hc
  rw [hc] at h
  exact absurd h (by decide)

theorem coreOf_ne_nil (p : ParamShape) (hp : ShapeOk p) : coreOf p ≠ [] := by
  unfold coreOf
  intro h
  exact hp.1.1 (List.append_eq_nil.mp h).1

theorem coreOf_head (p : ParamShape) (hp : ShapeOk p) :
    ∀ c, (coreOf p).head? = some c → isPySpace c = false := by
  intro c hc
  unfold coreOf at hc
  obtain ⟨a, w', ha⟩ : ∃ a w', p.w1 = a :: w' := by
    cases hw : p.w1 with
    | nil => exact absurd hw hp.1.1
    | cons a w' => exact ⟨a, w', rfl⟩
  rw [ha, List.cons_append, List.head?_cons, Option.some.injEq] at hc
  exact hc ▸ (hp.1.2 a (ha ▸ List.mem_cons_self a w')).1

theorem coreOf_last (p : ParamShape) (hp : ShapeOk p) :
    ∀ c, (coreOf p).getLast? = some c → isPySpace c = false := by
  intro c hc
  unfold coreOf at hc
  cases hw2 : p.w2 with
  | none =>
    rw [hw2] at hc
    rw [List.append_nil] at hc
    exact (hp.1.2 c (List.mem_of_mem_getLast? hc)).1
  | some w =>
    rw [hw2] at hc
    have hwOk : WordOk w := by
      have h2 := hp.2
      rw [hw2] at h2
      exact h2
    obtain ⟨b, w', hb⟩ : ∃ b w', w.reverse = b :: w' := by
      cases hww : w.reverse with
      | nil => exact absurd (List.reverse_eq_nil_iff.mp hww) hwOk.1
      | cons b w' => exact ⟨b, w', rfl⟩
    have hlast : w.getLast? = some b := by
      rw [← List.head?_reverse, hb, List.head?_cons]
    rw [List.getLast?_append, List.getLast?_append, hlast] at hc
    have hbc : b = c := by
      have : (some b).or (List.replicate p.sep.succ ' ').getLast? = some b := rfl
      rw [show ((some b).or (List.replicate (p.sep + 1) ' ').getLast?).or p.w1.getLast? =
          some b from rfl] at hc
      exact Option.some.injEq _ _ ▸ hc.symm ▸ rfl
    exact hbc ▸ (hwOk.2 b (List.mem_of_mem_getLast? hlast)).1


theorem w2Ok_of_shape {p : ParamShape} {w : List Char} (hp : ShapeOk p)
    (hw : p.w2 = some w) : WordOk w := by
  have h2 := hp.2
  rw [hw] at h2
  exact h2

theorem pyStrip_render (p : ParamShape) (hp : ShapeOk p) :
    pyStrip (renderParam p) = coreOf p := by
  unfold renderParam
  exact pyStrip_pad p.lead p.trail (coreOf p) (coreOf_head p hp) (coreOf_last p hp)

theorem collapse_core (p : ParamShape) (hp : ShapeOk p) :
    collapseWs (coreOf p) = collapsedCore p := by
  unfold coreOf collapsedCore
  cases hw2 : p.w2 with
  | none =>
    rw [List.append_nil]
    exact collapseWs_id p.w1 (fun c hc => (hp.1.2 c hc).1)
  | some w =>
    have hwOk : WordOk w := w2Ok_of_shape hp hw2
    rw [collapse_word_append p.w1 _ (fun c hc => (hp.1.2 c hc).1)]
    congr 1
    rw [collapse_sprun p.sep w (fun c hc => by
      cases hw : w with
      | nil => rw [hw] at hc; exact absurd hc (by simp)
      | cons b bs =>
        rw [hw, List.head?_cons, Option.some.injEq] at hc
        exact hc ▸ (hwOk.2 b (hw ▸ List.mem_cons_self b bs)).1)]
    rw [collapseWs_id w (fun c hc => (hwOk.2 c hc).1)]

theorem collapsedCore_head (p : ParamShape) (hp : ShapeOk p) :
    ∀ c, (collapsedCore p).head? = some c → isPySpace c = false := by
  intro c hc
  unfold collapsedCore at hc
  obtain ⟨a, w', ha⟩ : ∃ a w', p.w1 = a :: w' := by
    cases hw : p.w1 with
    | nil => exact absurd hw hp.1.1
    | cons a w' => exact ⟨a, w', rfl⟩
  rw [ha, List.cons_append, List.head?_cons, Option.some.injEq] at hc
  exact hc ▸ (hp.1.2 a (ha ▸ List.mem_cons_self a w')).1

theorem collapsedCore_last (p : ParamShape) (hp : ShapeOk p) :
    ∀ c, (collapsedCore p).getLast? = some c → isPySpace c = false := by
  intro c hc
  unfold collapsedCore at hc
  cases hw2 : p.w2 with
  | none =>
    rw [hw2, List.append_nil] at hc
    exact (hp.1.2 c (List.mem_of_mem_getLast? hc)).1
  | some w =>
    have hwOk : WordOk w := w2Ok_of_shape hp hw2
    rw [hw2] at hc
    obtain ⟨b, w', hb⟩ : ∃ b w', w.reverse = b :: w' := by
      cases hww : w.reverse with
      | nil => exact absurd (List.reverse_eq_nil_iff.mp hww) hwOk.1
      | cons b w' => exact ⟨b, w', rfl⟩
    have hlast : w.getLast? = some b := by
      rw [← List.head?_reverse, hb, List.head?_cons]
    have hlast2 : (' ' :: w).getLast? = some b := by
      rw [show (' ' :: w) = [' '] ++ w from rfl, List.getLast?_append, hlast]
      rfl
    rw [List.getLast?_append, hlast2] at hc
    have hbc : b = c := by
      have : (some b).or p.w1.getLast? = some b := rfl
      rw [this] at hc
      exact Option.some.inj hc
    exact hbc ▸ (hwOk.2 b (List.mem_of_mem_getLast? hlast)).1

theorem pyStrip_collapsedCore (p : ParamShape) (hp : ShapeOk p) :
    pyStrip (collapsedCore p) = collapsedCore p :=
  pyStrip_edges _ (collapsedCore_head p hp) (collapsedCore_last p hp)

theorem collapsedCore_ne_nil (p : ParamShape) (hp : ShapeOk p) : collapsedCore p ≠ [] := by
  unfold collapsedCore
  intro h
  exact hp.1.1 (List.append_eq_nil.mp h).1

theorem clean_param_core (p : ParamShape) (hp : ShapeOk p)
    (hkw : removeKws (coreOf p) = coreOf p) :
    clean_param (coreOf p) = p.w1 := by
  unfold clean_param
  rw [if_neg (coreOf_ne_nil p hp), hkw, collapse_core p hp, pyStrip_collapsedCore p hp]
  rw [if_neg (collapsedCore_ne_nil p hp)]
  cases hw2 : p.w2 with
  | none =>
    have hcc : collapsedCore p = p.w1 := by
      unfold collapsedCore
      rw [hw2, List.append_nil]
    rw [hcc]
    rw [lastTLSpace_plainWord p.w1 (fun c hc => (hp.1.2 c hc).1)]
  | some w =>
    have hwOk : WordOk w := w2Ok_of_shape hp hw2
    have hcc : collapsedCore p = p.w1 ++ ' ' :: w := by
      unfold collapsedCore
      rw [hw2]
    rw [hcc]
    rw [lastTLSpace_twoWords p.w1 w
      (fun c hc => ⟨(hp.1.2 c hc).1, (hp.1.2 c hc).2.2.1, (hp.1.2 c hc).2.2.2⟩)
      (fun c hc => (hwOk.2 c hc).1)]
    show pyStrip (List.take p.w1.length (p.w1 ++ ' ' :: w)) = p.w1
    rw [List.take_left]
    exact pyStrip_id p.w1 (fun c hc => (hp.1.2 c hc).1)


theorem splitJoin2 (ts : List (List Char))
    (h : ∀ t ∈ ts, t ≠ [] ∧ depthRun 0 t = 0 ∧ noTLComma 0 t = true) :
    splitTopLevelCommas (joinCommas ts) = ts.map pyStrip := by
  induction ts with
  | nil => rfl
  | cons t ts' ih =>
    obtain ⟨hne, hd, hc⟩ := h t (by simp)
    cases ts' with
    | nil =>
      rw [joinCommas_single]
      unfold splitTopLevelCommas
      have h1 := splitTLAux_token t 0 [] [] hc
      rw [List.append_nil] at h1
      rw [List.append_nil] at h1
      rw [h1, hd]
      unfold splitTLAux
      rw [if_neg (by simpa using hne), List.reverse_reverse]
      rfl
    | cons t2 ts'' =>
      rw [joinCommas_cons]
      unfold splitTopLevelCommas
      have h1 := splitTLAux_token t 0 [] (',' :: joinCommas (t2 :: ts'')) hc
      rw [List.append_nil] at h1
      rw [h1, hd]
      unfold splitTLAux
      rw [if_pos (by simp), List.reverse_reverse]
      rw [List.map_cons]
      exact congrArg (pyStrip t :: ·) (ih (fun x hx => h x (List.mem_cons_of_mem t hx)))

theorem depthRun_noParen (l : List Char) (h : ∀ c ∈ l, c ≠ '(' ∧ c ≠ ')') :
    ∀ d, depthRun d l = d := by
  induction l with
  | nil => intro d; rfl
  | cons c cs ih =>
    intro d
    obtain ⟨h1, h2⟩ := h c (by simp)
    unfold depthRun depthStep
    rw [if_neg h1, if_neg h2]
    exact ih (fun x hx => h x (List.mem_cons_of_mem c hx)) d

theorem noTLComma_noComma (l : List Char) (h : ',' ∉ l) : ∀ d, noTLComma d l = true := by
  induction l with
  | nil => intro d; rfl
  | cons c cs ih =>
    intro d
    unfold noTLComma
    rw [if_neg (by
      simp only [Bool.and_eq_true, decide_eq_true_eq, not_and]
      intro hcc
      exact (h (List.mem_cons.mpr (Or.inl hcc.symm))).elim)]
    exact ih (fun hx => h (List.mem_cons_of_mem c hx)) _

theorem renderParam_chars (p : ParamShape) (hp : ShapeOk p) :
    ∀ c ∈ renderParam p, (isPySpace c = true → c = ' ') ∧ c ≠ ',' ∧ c ≠ '(' ∧ c ≠ ')' := by
  intro c hc
  unfold renderParam coreOf at hc
  have hsp : c = ' ' → (isPySpace c = true → c = ' ') ∧ c ≠ ',' ∧ c ≠ '(' ∧ c ≠ ')' := by
    intro hceq
    subst hceq
    exact ⟨fun _ => rfl, by decide, by decide, by decide⟩
  have hword : ∀ w, WordOk w → c ∈ w →
      (isPySpace c = true → c = ' ') ∧ c ≠ ',' ∧ c ≠ '(' ∧ c ≠ ')' := by
    intro w hw hcw
    obtain ⟨hs, hcm, hpo, hpc⟩ := hw.2 c hcw
    exact ⟨fun hq => absurd hq (by simp [hs]), hcm, hpo, hpc⟩
  rcases List.mem_append.mp hc with h1 | h2
  · exact hsp (List.eq_of_mem_replicate h1)
  · rcases List.mem_append.mp h2 with h3 | h4
    · rcases List.mem_append.mp h3 with h5 | h6
      · exact hword p.w1 hp.1 h5
      · cases hw2 : p.w2 with
        | none =>
          rw [hw2] at h6
          exact absurd h6 (by simp)
        | some w =>
          rw [hw2] at h6
          rcases List.mem_append.mp h6 with h7 | h8
          · exact hsp (List.eq_of_mem_replicate h7)
          · exact hword w (w2Ok_of_shape hp hw2) h8
    · exact hsp (List.eq_of_mem_replicate h4)

theorem renderParam_ne_nil (p : ParamShape) (hp : ShapeOk p) : renderParam p ≠ [] := by
  unfold renderParam
  intro h
  obtain ⟨-, h2⟩ := List.append_eq_nil.mp h
  exact coreOf_ne_nil p hp (List.append_eq_nil.mp h2).1

theorem py_side (name : List Char) (ps : List ParamShape)
    (hps : ∀ p ∈ ps, ShapeOk p)
    (hkwP : ∀ p ∈ ps, removeKws (pyStrip (renderParam p)) = pyStrip (renderParam p)) :
    pyNormalizeL name (joinCommas (ps.map renderParam)) =
      name ++ '(' :: joinCommas (ps.map ParamShape.w1) ++ [')'] := by
  unfold pyNormalizeL
  suffices hcl : cleanedItems (joinCommas (ps.map renderParam)) = ps.map ParamShape.w1 by
    rw [hcl]
  unfold cleanedItems
  rw [splitJoin2 (ps.map renderParam) (by
    intro t ht
    obtain ⟨p, hpm, rfl⟩ := List.mem_map.mp ht
    have hsh := hps p hpm
    refine ⟨renderParam_ne_nil p hsh, ?_, ?_⟩
    · exact depthRun_noParen _ (fun c hc =>
        ⟨(renderParam_chars p hsh c hc).2.2.1, (renderParam_chars p hsh c hc).2.2.2⟩) 0
    · exact noTLComma_noComma _ (fun hc => (renderParam_chars p hsh ',' hc).2.1 rfl) 0)]
  rw [List.map_map]
  have hmapcore : ps.map (pyStrip ∘ renderParam) = ps.map coreOf :=
    List.map_congr_left (fun p hpm => pyStrip_render p (hps p hpm))
  rw [hmapcore]
  have hfil1 : (ps.map coreOf).filter (fun q => pyStrip q ≠ []) = ps.map coreOf :=
    List.filter_eq_self.mpr (fun q hq => by
      obtain ⟨p, hpm, rfl⟩ := List.mem_map.mp hq
      have hsh := hps p hpm
      rw [pyStrip_edges (coreOf p) (coreOf_head p hsh) (coreOf_last p hsh)]
      simpa using coreOf_ne_nil p hsh)
  rw [hfil1]
  have hmapcl : (ps.map coreOf).map clean_param = ps.map ParamShape.w1 := by
    rw [List.map_map]
    exact List.map_congr_left (fun p hpm => by
      have hsh := hps p hpm
      have hkw := hkwP p hpm
      rw [pyStrip_render p hsh] at hkw
      exact clean_param_core p hsh hkw)
  rw [hmapcl]
  exact List.filter_eq_self.mpr (fun q hq => by
    obtain ⟨p, hpm, rfl⟩ := List.mem_map.mp hq
    simpa using (hps p hpm).1.1)


theorem collapsedCore_chars (p : ParamShape) (hp : ShapeOk p) :
    ∀ c ∈ collapsedCore p, (isPySpace c = true → c = ' ') ∧ c ≠ ',' := by
  intro c hc
  unfold collapsedCore at hc
  have hword : ∀ w, WordOk w → c ∈ w → (isPySpace c = true → c = ' ') ∧ c ≠ ',' := by
    intro w hw hcw
    obtain ⟨hs, hcm, -, -⟩ := hw.2 c hcw
    exact ⟨fun hq => absurd hq (by simp [hs]), hcm⟩
  rcases List.mem_append.mp hc with h1 | h2
  · exact hword p.w1 hp.1 h1
  · cases hw2 : p.w2 with
    | none =>
      rw [hw2] at h2
      exact absurd h2 (by simp)
    | some w =>
      rw [hw2] at h2
      rcases List.mem_cons.mp h2 with h3 | h4
      · rw [h3]
        exact ⟨fun _ => rfl, by decide⟩
      · exact hword w (w2Ok_of_shape hp hw2) h4


theorem spOpt_zero : spOpt 0 = [] := rfl

theorem spOpt_succ (m : Nat) : spOpt (m + 1) = [' '] := by
  unfold spOpt
  have h : min (m + 1) 1 = 1 := by omega
  rw [h]
  rfl

theorem wordOk_head (w : List Char) (hw : WordOk w) :
    ∀ c, w.head? = some c → isPySpace c = false := by
  intro c hc
  cases w with
  | nil => exact absurd hc (by simp)
  | cons a w' =>
    rw [List.head?_cons, Option.some.injEq] at hc
    exact hc ▸ (hw.2 a (List.mem_cons_self a w')).1

theorem collapse_render (p : ParamShape) (hp : ShapeOk p) :
    collapseWs (renderParam p) = spOpt p.lead ++ (collapsedCore p ++ spOpt p.trail) := by
  have hinner : collapseWs (coreOf p ++ List.replicate p.trail ' ') =
      collapsedCore p ++ spOpt p.trail := by
    cases htr : p.trail with
    | zero =>
      rw [List.replicate_zero, List.append_nil, collapse_core p hp, spOpt_zero,
        List.append_nil]
    | succ m =>
      cases hw2 : p.w2 with
      | none =>
        have hcore : coreOf p = p.w1 := by
          unfold coreOf
          rw [hw2, List.append_nil]
        have hcc : collapsedCore p = p.w1 := by
          unfold collapsedCore
          rw [hw2, List.append_nil]
        rw [hcore, hcc, spOpt_succ]
        rw [collapse_word_append p.w1 _ (fun c hc => (hp.1.2 c hc).1)]
        rw [collapse_replicate_eq]
      | some w =>
        have hwOk : WordOk w := w2Ok_of_shape hp hw2
        have hcore : coreOf p = p.w1 ++ (List.replicate (p.sep + 1) ' ' ++ w) := by
          unfold coreOf
          rw [hw2]
        have hcc : collapsedCore p = p.w1 ++ ' ' :: w := by
          unfold collapsedCore
          rw [hw2]
        rw [hcore, hcc, spOpt_succ]
        rw [List.append_assoc, List.append_assoc]
        rw [collapse_word_append p.w1 _ (fun c hc => (hp.1.2 c hc).1)]
        rw [collapse_sprun p.sep _ (fun c hc => by
          rw [List.head?_append_of_ne_nil _ hwOk.1] at hc
          exact wordOk_head w hwOk c hc)]
        rw [collapse_word_append w _ (fun c hc => (hwOk.2 c hc).1)]
        rw [collapse_replicate_eq]
        simp [List.append_assoc]
  unfold renderParam
  cases hld : p.lead with
  | zero =>
    rw [List.replicate_zero, List.nil_append, spOpt_zero, List.nil_append, hinner]
  | succ m =>
    rw [collapse_sprun m _ (fun c hc => by
      rw [List.head?_append_of_ne_nil _ (coreOf_ne_nil p hp)] at hc
      exact coreOf_head p hp c hc)]
    rw [spOpt_succ, hinner]
    rfl


theorem render_onlySp (p : ParamShape) (hp : ShapeOk p) : onlySp (renderParam p) :=
  fun c hc hsp => (renderParam_chars p hp c hc).1 hsp

theorem field_onlySp (p : ParamShape) (hp : ShapeOk p) :
    onlySp (collapseWs (renderParam p)) := by
  intro c hc hsp
  rw [collapse_render p hp] at hc
  rcases List.mem_append.mp hc with h1 | h2
  · exact List.eq_of_mem_replicate h1
  · rcases List.mem_append.mp h2 with h3 | h4
    · exact (collapsedCore_chars p hp c h3).1 hsp
    · exact List.eq_of_mem_replicate h4

theorem field_noComma (p : ParamShape) (hp : ShapeOk p) :
    ',' ∉ collapseWs (renderParam p) := by
  intro hc
  rw [collapse_render p hp] at hc
  rcases List.mem_append.mp hc with h1 | h2
  · exact absurd (List.eq_of_mem_replicate h1) (by decide)
  · rcases List.mem_append.mp h2 with h3 | h4
    · exact (collapsedCore_chars p hp ',' h3).2 rfl
    · exact absurd (List.eq_of_mem_replicate h4) (by decide)

theorem field_ne_nil (p : ParamShape) (hp : ShapeOk p) :
    collapseWs (renderParam p) ≠ [] := by
  rw [collapse_render p hp]
  intro h
  obtain ⟨-, h2⟩ := List.append_eq_nil.mp h
  exact collapsedCore_ne_nil p hp (List.append_eq_nil.mp h2).1

theorem sedStrip_field (p : ParamShape) (hp : ShapeOk p) :
    sedStripSpaces (collapseWs (renderParam p)) = collapsedCore p := by
  rw [sedStrip_eq_pyStrip _ (field_onlySp p hp), collapse_render p hp]
  exact pyStrip_pad (min p.lead 1) (min p.trail 1) _
    (collapsedCore_head p hp) (collapsedCore_last p hp)

theorem firstWord_collapsedCore (p : ParamShape) (hp : ShapeOk p) :
    firstWord (collapsedCore p) = p.w1 := by
  unfold firstWord collapsedCore
  cases hw2 : p.w2 with
  | none =>
    rw [List.append_nil]
    exact takeWhile_nospace_id p.w1 (fun c hc => nonspace_ne_sp (hp.1.2 c hc).1)
  | some w =>
    exact takeWhile_nospace_append p.w1 w (fun c hc => nonspace_ne_sp (hp.1.2 c hc).1)

theorem joinCommas_cons2 (q : List Char) (l : List (List Char)) (hl : l ≠ []) :
    joinCommas (q :: l) = q ++ ',' :: joinCommas l := by
  cases l with
  | nil => exact absurd rfl hl
  | cons t2 ts => exact joinCommas_cons q t2 ts

theorem mem_joinCommas (qs : List (List Char)) (c : Char) (hc : c ∈ joinCommas qs) :
    c = ',' ∨ ∃ q ∈ qs, c ∈ q := by
  induction qs with
  | nil => exact absurd hc (by simp [joinCommas])
  | cons q qs' ih =>
    cases qs' with
    | nil =>
      rw [joinCommas_single] at hc
      exact Or.inr ⟨q, by simp, hc⟩
    | cons q2 qs'' =>
      rw [joinCommas_cons] at hc
      rcases List.mem_append.mp hc with h1 | h2
      · exact Or.inr ⟨q, by simp, h1⟩
      · rcases List.mem_cons.mp h2 with h3 | h4
        · exact Or.inl h3
        · rcases ih h4 with h5 | ⟨q', hq', hcq'⟩
          · exact Or.inl h5
          · exact Or.inr ⟨q', List.mem_cons_of_mem q hq', hcq'⟩

theorem onlySp_joinCommas (qs : List (List Char)) (h : ∀ q ∈ qs, onlySp q) :
    onlySp (joinCommas qs) := by
  intro c hc hsp
  rcases mem_joinCommas qs c hc with h1 | ⟨q, hq, hcq⟩
  · rw [h1] at hsp
    exact absurd hsp (by decide)
  · exact h q hq c hcq hsp

theorem joinCommas_ne_nil (qs : List (List Char)) (q : List Char) (hq : q ∈ qs)
    (hqne : q ≠ []) : joinCommas qs ≠ [] := by
  induction qs with
  | nil => exact absurd hq (by simp)
  | cons q1 qs' ih =>
    cases qs' with
    | nil =>
      rw [joinCommas_single]
      rcases List.mem_cons.mp hq with h1 | h2
      · exact h1 ▸ hqne
      · exact absurd h2 (by simp)
    | cons q2 qs'' =>
      rw [joinCommas_cons]
      intro hcon
      obtain ⟨-, h2⟩ := List.append_eq_nil.mp hcon
      exact List.cons_ne_nil _ _ h2

theorem joinCommas_head? (q : List Char) (qs : List (List Char)) (hq : q ≠ []) :
    (joinCommas (q :: qs)).head? = q.head? := by
  cases qs with
  | nil => rw [joinCommas_single]
  | cons q2 qs' =>
    rw [joinCommas_cons]
    exact List.head?_append_of_ne_nil _ hq

theorem joinCommas_getLast? (qs : List (List Char)) (q : List Char) (hq : q ≠ []) :
    (joinCommas (qs ++ [q])).getLast? = q.getLast? := by
  induction qs with
  | nil =>
    rw [List.nil_append, joinCommas_single]
  | cons q1 qs' ih =>
    rw [List.cons_append]
    rw [joinCommas_cons2 q1 (qs' ++ [q]) (by simp)]
    rw [List.getLast?_append_of_ne_nil _ (by
      intro hcon
      exact List.cons_ne_nil ',' _ hcon)]
    rw [show (',' :: joinCommas (qs' ++ [q])) = [','] ++ joinCommas (qs' ++ [q]) from rfl]
    rw [List.getLast?_append_of_ne_nil _ (joinCommas_ne_nil _ q (by simp) hq)]
    exact ih

theorem splitCommaAll_join (qs : List (List Char)) (hq : ∀ q ∈ qs, ',' ∉ q) :
    qs ≠ [] → splitCommaAll (joinCommas qs) = qs := by
  induction qs with
  | nil => intro h; exact absurd rfl h
  | cons q qs' ih =>
    intro _hne
    cases qs' with
    | nil =>
      rw [joinCommas_single]
      exact splitCommaAll_commaFree q (hq q (by simp))
    | cons q2 qs'' =>
      rw [joinCommas_cons]
      rw [splitCommaAll_append_comma q _ (hq q (by simp))]
      rw [ih (fun x hx => hq x (List.mem_cons_of_mem q hx)) (by simp)]

theorem bashFields_eq_split (l : List Char) (h1 : l ≠ []) (h2 : l.getLast? ≠ some ',') :
    bashFields l = splitCommaAll l := by
  unfold bashFields
  cases l with
  | nil => exact absurd rfl h1
  | cons c cs => rw [if_neg h2]

theorem foldr_fields (fs : List (List Char)) (h : ∀ f ∈ fs, sedStripSpaces f ≠ []) :
    fs.foldr (fun p acc =>
      if sedStripSpaces p = [] then acc else firstWord (sedStripSpaces p) :: acc) [] =
    fs.map (fun f => firstWord (sedStripSpaces f)) := by
  induction fs with
  | nil => rfl
  | cons f fs' ih =>
    rw [List.foldr_cons, List.map_cons]
    rw [if_neg (h f (by simp))]
    rw [ih (fun x hx => h x (List.mem_cons_of_mem f hx))]



theorem bash_side (name : List Char) (ps : List ParamShape)
    (hps : ∀ p ∈ ps, ShapeOk p)
    (hkwB : removeKws (joinCommas (ps.map renderParam)) = joinCommas (ps.map renderParam))
    (hlead : ∀ p, ps.head? = some p → p.lead = 0)
    (htrail : ∀ p, ps.getLast? = some p → p.trail = 0) :
    bashNormalizeL name (joinCommas (ps.map renderParam)) =
      name ++ '(' :: joinCommas (ps.map ParamShape.w1) ++ [')'] := by
  cases ps with
  | nil => rfl
  | cons p0 rest =>
  have hsh0 : ShapeOk p0 := hps p0 (by simp)
  have hlead0 : p0.lead = 0 := hlead p0 rfl
  obtain ⟨init, plast, hconcat⟩ : ∃ init plast, p0 :: rest = init ++ [plast] := by
    rcases List.eq_nil_or_concat (p0 :: rest) with h | ⟨init, plast, h⟩
    · exact absurd h (by simp)
    · exact ⟨init, plast, by rw [h, List.concat_eq_append]⟩
  have hplastmem : plast ∈ p0 :: rest := by
    rw [hconcat]
    simp
  have hshl : ShapeOk plast := hps plast hplastmem
  have htrail0 : plast.trail = 0 := htrail plast (by rw [hconcat]; exact List.getLast?_concat _)
  unfold bashNormalizeL
  rw [hkwB]
  rw [squeeze_eq_collapse _ (onlySp_joinCommas _ (fun q hq => by
    obtain ⟨p, hpm, rfl⟩ := List.mem_map.mp hq
    exact render_onlySp p (hps p hpm)))]
  rw [collapse_join]
  have hfmem : ∀ f ∈ ((p0 :: rest).map renderParam).map collapseWs,
      ∃ p ∈ p0 :: rest, f = collapseWs (renderParam p) := by
    intro f hf
    obtain ⟨r, hr, rfl⟩ := List.mem_map.mp hf
    obtain ⟨p, hpm, rfl⟩ := List.mem_map.mp hr
    exact ⟨p, hpm, rfl⟩
  have hmapcons : ((p0 :: rest).map renderParam).map collapseWs =
      collapseWs (renderParam p0) :: (rest.map renderParam).map collapseWs := by
    simp only [List.map_cons]
  have hjoinlast : (joinCommas (((p0 :: rest).map renderParam).map collapseWs)).getLast? =
      (collapsedCore plast).getLast? := by
    rw [hconcat]
    rw [show ((init ++ [plast]).map renderParam).map collapseWs =
        ((init.map renderParam).map collapseWs) ++ [collapseWs (renderParam plast)] by
      simp only [List.map_append, List.map_cons, List.map_nil]]
    rw [joinCommas_getLast? _ _ (field_ne_nil plast hshl)]
    rw [collapse_render plast hshl, htrail0, spOpt_zero, List.append_nil]
    exact List.getLast?_append_of_ne_nil _ (collapsedCore_ne_nil plast hshl)
  have hstrip : sedStripSpaces (joinCommas (((p0 :: rest).map renderParam).map collapseWs)) =
      joinCommas (((p0 :: rest).map renderParam).map collapseWs) := by
    rw [sedStrip_eq_pyStrip _ (onlySp_joinCommas _ (fun q hq => by
      obtain ⟨p, hpm, rfl⟩ := hfmem q hq
      exact field_onlySp p (hps p hpm)))]
    apply pyStrip_edges
    · intro c hc
      rw [hmapcons] at hc
      rw [joinCommas_head? _ _ (field_ne_nil p0 hsh0)] at hc
      rw [collapse_render p0 hsh0, hlead0, spOpt_zero, List.nil_append] at hc
      rw [List.head?_append_of_ne_nil _ (collapsedCore_ne_nil p0 hsh0)] at hc
      exact collapsedCore_head p0 hsh0 c hc
    · intro c hc
      rw [hjoinlast] at hc
      exact collapsedCore_last plast hshl c hc
  rw [hstrip]
  have hjoinne : joinCommas (((p0 :: rest).map renderParam).map collapseWs) ≠ [] := by
    apply joinCommas_ne_nil _ (collapseWs (renderParam p0))
    · rw [hmapcons]
      exact List.mem_cons_self _ _
    · exact field_ne_nil p0 hsh0
  have hlastne : (joinCommas (((p0 :: rest).map renderParam).map collapseWs)).getLast? ≠
      some ',' := by
    rw [hjoinlast]
    intro hcon
    exact (collapsedCore_chars plast hshl ',' (List.mem_of_mem_getLast? hcon)).2 rfl
  rw [bashFields_eq_split _ hjoinne hlastne]
  rw [splitCommaAll_join _ (fun q hq => by
    obtain ⟨p, hpm, rfl⟩ := hfmem q hq
    exact field_noComma p (hps p hpm)) (by rw [hmapcons]; exact List.cons_ne_nil _ _)]
  rw [foldr_fields _ (fun f hf => by
    obtain ⟨p, hpm, rfl⟩ := hfmem f hf
    rw [sedStrip_field p (hps p hpm)]
    exact collapsedCore_ne_nil p (hps p hpm))]
  have hfinal : (((p0 :: rest).map renderParam).map collapseWs).map
      (fun f => firstWord (sedStripSpaces f)) = (p0 :: rest).map ParamShape.w1 := by
    rw [List.map_map, List.map_map]
    exact List.map_congr_left (fun p hpm => by
      show firstWord (sedStripSpaces (collapseWs (renderParam p))) = p.w1
      rw [sedStrip_field p (hps p hpm)]
      exact firstWord_collapsedCore p (hps p hpm))
  rw [hfinal]


/-- Claim C9 counterexample: the two normalization paths disagree on the
    parenthesis-free parameter list `"a b c"` (three space-separated words):
    the python path drops only the last word (`f(a b)`), while the bash
    fallback keeps only the first (`f(a)`). -/
theorem claim_C9_counterexample :
    ('(' ∉ "a b c".data ∧ ')' ∉ "a b c".data) ∧
    (⟨pyNormalizeL "f".data "a b c".data⟩ : String) = "f(a b)" ∧
    (⟨bashNormalizeL "f".data "a b c".data⟩ : String) = "f(a)" :=
  ⟨⟨by decide, by decide⟩, by decide, by decide⟩

/-- Claim C9 amended: the python path and the bash fallback agree on every
    parenthesis-free parameter list in which each comma-separated parameter
    consists of a type word optionally followed by a name word (separated and
    surrounded by plain spaces), the list does not begin or end with spaces,
    and no data-location keyword occurs; both produce
    `name(type1,type2,...)`. -/
theorem claim_C9_amended (name : List Char) (ps : List ParamShape)
    (hps : ∀ p ∈ ps, ShapeOk p)
    (hkwP : ∀ p ∈ ps, removeKws (pyStrip (renderParam p)) = pyStrip (renderParam p))
    (hkwB : removeKws (joinCommas (ps.map renderParam)) = joinCommas (ps.map renderParam))
    (hlead : ∀ p, ps.head? = some p → p.lead = 0)
    (htrail : ∀ p, ps.getLast? = some p → p.trail = 0) :
    pyNormalizeL name (joinCommas (ps.map renderParam)) =
      bashNormalizeL name (joinCommas (ps.map renderParam)) ∧
    pyNormalizeL name (joinCommas (ps.map renderParam)) =
      name ++ '(' :: joinCommas (ps.map ParamShape.w1) ++ [')'] := by
  have hpy := py_side name ps hps hkwP
  have hbash := bash_side name ps hps hkwB hlead htrail
  exact ⟨hpy.trans hbash.symm, hpy⟩

/-- Witness for the amended claim C9 at the parameter list
    `"uint256 amount, address recipient"`. -/
theorem claim_C9_witness :
    ((⟨joinCommas ([⟨0, "uint256".data, 0, some "amount".data, 0⟩,
        ⟨1, "address".data, 0, some "recipient".data, 0⟩].map renderParam)⟩ : String) =
      "uint256 amount, address recipient") ∧
    (∀ p ∈ [(⟨0, "uint256".data, 0, some "amount".data, 0⟩ : ParamShape),
        ⟨1, "address".data, 0, some "recipient".data, 0⟩], ShapeOk p) ∧
    pyNormalizeL "foo".data (joinCommas ([⟨0, "uint256".data, 0, some "amount".data, 0⟩,
        (⟨1, "address".data, 0, some "recipient".data, 0⟩ : ParamShape)].map renderParam)) =
      bashNormalizeL "foo".data (joinCommas ([⟨0, "uint256".data, 0, some "amount".data, 0⟩,
        (⟨1, "address".data, 0, some "recipient".data, 0⟩ : ParamShape)].map renderParam)) := by
  refine ⟨by decide, by decide, ?_⟩
  exact (claim_C9_amended "foo".data
    [⟨0, "uint256".data, 0, some "amount".data, 0⟩,
      ⟨1, "address".data, 0, some "recipient".data, 0⟩]
    (by decide) (by decide) (by decide)
    (fun p hp => by rw [← Option.some.inj hp])
    (fun p hp => by rw [← Option.some.inj hp]; rfl)).1

theorem sortPairs_sorted {H : Type} (l : List (Nat × H)) :
    List.Sorted (fun a b : Nat × H => a.1 ≤ b.1) (sortPairs l) := by
  haveI : IsTotal (Nat × H) (fun a b : Nat × H => a.1 ≤ b.1) := ⟨fun a b => Nat.le_total a.1 b.1⟩
  haveI : IsTrans (Nat × H) (fun a b : Nat × H => a.1 ≤ b.1) :=
    ⟨fun a b c h1 h2 => Nat.le_trans h1 h2⟩
  exact List.sorted_insertionSort _ l

theorem sortPairs_perm {H : Type} (l : List (Nat × H)) : (sortPairs l).Perm l :=
  List.perm_insertionSort _ l

theorem sortPairs_strict {H : Type} (l : List (Nat × H))
    (hnd : (l.map Prod.fst).Nodup) :
    List.Pairwise (fun a b : Nat × H => a.1 < b.1) (sortPairs l) := by
  have hle := sortPairs_sorted l
  have hnd2 : ((sortPairs l).map Prod.fst).Nodup := by
    rw [List.Perm.nodup_iff ((sortPairs_perm l).map Prod.fst)]
    exact hnd
  have hne : List.Pairwise (fun a b : Nat × H => a.1 ≠ b.1) (sortPairs l) :=
    List.pairwise_map.mp hnd2
  exact (hle.and hne).imp (fun h => Nat.lt_of_le_of_ne h.1 h.2)

theorem sortPairs_eq_of_perm {H : Type} (l1 l2 : List (Nat × H)) (hperm : l1.Perm l2)
    (hnd : (l1.map Prod.fst).Nodup) : sortPairs l1 = sortPairs l2 := by
  haveI : IsAntisymm (Nat × H) (fun a b : Nat × H => a.1 < b.1) :=
    ⟨fun a b h1 h2 => absurd (Nat.lt_trans h1 h2) (Nat.lt_irrefl _)⟩
  have hp : (sortPairs l1).Perm (sortPairs l2) :=
    ((sortPairs_perm l1).trans hperm).trans (sortPairs_perm l2).symm
  have hnd2 : (l2.map Prod.fst).Nodup := by
    rw [← List.Perm.nodup_iff (hperm.map Prod.fst)]
    exact hnd
  exact List.eq_of_perm_of_sorted hp (sortPairs_strict l1 hnd) (sortPairs_strict l2 hnd2)

theorem slotPairs_eq_of_perm {H : Type} (k : Nat) (l1 l2 : List (Nat × H))
    (hperm : l1.Perm l2) (hnd : (l1.map Prod.fst).Nodup) (i : Nat) :
    slotPairs k l1 i = slotPairs k l2 i := by
  unfold slotPairs
  apply sortPairs_eq_of_perm
  · exact hperm.filter _
  · exact List.Nodup.sublist ((List.filter_sublist l1).map Prod.fst) hnd

theorem mkEntry_chain_inv {H : Type} (qs ps : List (Nat × H))
    (h : mkEntry qs = SlotEntry.chain ps) : qs = ps := by
  unfold mkEntry at h
  split at h
  · exact absurd h (by simp)
  · exact absurd h (by simp)
  · exact (SlotEntry.chain.injEq _ _).mp h

/-- Claim C5: table construction is deterministic — building the table from
    the same selector-to-handler set under any input ordering yields an
    identical table, and every `CHAIN` entry lists its pairs in strictly
    ascending selector order. -/
theorem claim_C5_determinism {H : Type} (k : Nat) (l1 l2 : List (Nat × H))
    (hperm : l1.Perm l2) (hnd : (l1.map Prod.fst).Nodup) :
    buildTable k l1 = buildTable k l2 ∧
    ∀ e ∈ buildTable k l1, ∀ ps, e = SlotEntry.chain ps →
      List.Sorted (fun a b : Nat => a < b) (ps.map Prod.fst) := by
  constructor
  · unfold buildTable
    exact List.map_congr_left (fun i _ => by
      rw [slotPairs_eq_of_perm k l1 l2 hperm hnd i])
  · intro e he ps hps
    obtain ⟨i, -, rfl⟩ := List.mem_map.mp he
    have hqs : slotPairs k l1 i = ps := mkEntry_chain_inv _ _ hps
    have hstr : List.Pairwise (fun a b : Nat × H => a.1 < b.1) (slotPairs k l1 i) := by
      unfold slotPairs
      exact sortPairs_strict _
        (List.Nodup.sublist ((List.filter_sublist l1).map Prod.fst) hnd)
    rw [hqs] at hstr
    exact List.pairwise_map.mpr hstr

/-- Witness for claim C5 on a two-selector set given in two orders. -/
theorem claim_C5_witness :
    ([((5 : Nat), (50 : Nat)), (2, 20)].Perm [(2, 20), (5, 50)]) ∧
    (([((5 : Nat), (50 : Nat)), (2, 20)].map Prod.fst).Nodup) ∧
    buildTable 1 [((5 : Nat), (50 : Nat)), (2, 20)] = buildTable 1 [(2, 20), (5, 50)] :=
  ⟨by decide, by decide,
    (claim_C5_determinism 1 [(5, 50), (2, 20)] [(2, 20), (5, 50)]
      (by decide) (by decide)).1⟩


theorem clog2_le_two_pow (n : Nat) : n ≤ 2 ^ clog2 n := by
  unfold clog2
  cases hf : (List.range (n + 1)).find? (fun k => decide (n ≤ 2 ^ k)) with
  | some k =>
    have := List.find?_some hf
    rw [decide_eq_true_eq] at this
    simpa using this
  | none =>
    exfalso
    have hall := List.find?_eq_none.mp hf n (by simp)
    rw [decide_eq_true_eq] at hall
    exact hall (Nat.le_of_lt (Nat.lt_two_pow n))

theorem find?_range'_first (p : Nat → Bool) : ∀ (n s k : Nat),
    (List.range' s n).find? p = some k → ∀ j, s ≤ j → j < k → p j = false := by
  intro n
  induction n with
  | zero => intro s k hf; exact absurd hf (by simp)
  | succ n2 ih =>
    intro s k hf j hj1 hj2
    rw [List.range'_succ] at hf
    rw [List.find?_cons] at hf
    by_cases hps : p s = true
    · rw [hps] at hf
      simp only [Option.some.injEq] at hf
      omega
    · rw [Bool.not_eq_true] at hps
      rw [hps] at hf
      rcases Nat.eq_or_lt_of_le hj1 with heq | hlt
      · rw [← heq]
        exact hps
      · exact ih (s + 1) k hf j hlt hj2

theorem foldl_argmin (f : Nat → Nat) : ∀ (l : List Nat) (a : Nat),
    (∀ x ∈ l, a ≤ x) → List.Pairwise (· ≤ ·) l →
    (l.foldl (fun best k => if f k < f best then k else best) a = a ∨
      l.foldl (fun best k => if f k < f best then k else best) a ∈ l) ∧
    f (l.foldl (fun best k => if f k < f best then k else best) a) ≤ f a ∧
    (∀ k ∈ l, f (l.foldl (fun best k => if f k < f best then k else best) a) ≤ f k) ∧
    (f (l.foldl (fun best k => if f k < f best then k else best) a) = f a →
      l.foldl (fun best k => if f k < f best then k else best) a = a) ∧
    (∀ k ∈ l, f k = f (l.foldl (fun best k => if f k < f best then k else best) a) →
      l.foldl (fun best k => if f k < f best then k else best) a ≤ k) := by
  intro l
  induction l with
  | nil =>
    intro a _ _
    exact ⟨Or.inl rfl, Nat.le_refl _, by simp, fun _ => rfl, by simp⟩
  | cons x xs ih =>
    intro a ha hs
    rw [List.foldl_cons]
    have hxs : ∀ y ∈ xs, x ≤ y := fun y hy => (List.pairwise_cons.mp hs).1 y hy
    have hs' : List.Pairwise (· ≤ ·) xs := (List.pairwise_cons.mp hs).2
    by_cases hfx : f x < f a
    · rw [if_pos hfx]
      obtain ⟨ih1, ih2, ih3, ih4, ih5⟩ := ih x hxs hs'
      refine ⟨?_, ?_, ?_, ?_, ?_⟩
      · rcases ih1 with h | h
        · exact Or.inr (by rw [h]; exact List.mem_cons_self x xs)
        · exact Or.inr (List.mem_cons_of_mem x h)
      · exact Nat.le_of_lt (Nat.lt_of_le_of_lt ih2 hfx)
      · intro k hk
        rcases List.mem_cons.mp hk with h | h
        · exact h ▸ ih2
        · exact ih3 k h
      · intro heq
        exact absurd heq (Nat.ne_of_lt (Nat.lt_of_le_of_lt ih2 hfx))
      · intro k hk heq
        rcases List.mem_cons.mp hk with h | h
        · subst h
          rw [ih4 heq.symm]
        · exact ih5 k h heq
    · rw [if_neg hfx]
      have hfax : f a ≤ f x := Nat.le_of_not_lt hfx
      obtain ⟨ih1, ih2, ih3, ih4, ih5⟩ := ih a (fun y hy => ha y (List.mem_cons_of_mem x hy)) hs'
      refine ⟨?_, ?_, ?_, ?_, ?_⟩
      · rcases ih1 with h | h
        · exact Or.inl h
        · exact Or.inr (List.mem_cons_of_mem x h)
      · exact ih2
      · intro k hk
        rcases List.mem_cons.mp hk with h | h
        · exact h ▸ Nat.le_trans ih2 hfax
        · exact ih3 k h
      · exact ih4
      · intro k hk heq
        rcases List.mem_cons.mp hk with h | h
        · subst h
          have hba : f (xs.foldl (fun best k => if f k < f best then k else best) a) = f a :=
            Nat.le_antisymm ih2 (heq ▸ hfax)
          rw [ih4 hba]
          exact ha k (List.mem_cons_self _ _)
        · exact ih5 k h heq

theorem mem_candidateKs (kLow kMax k : Nat) (h : kLow ≤ kMax) :
    k ∈ candidateKs kLow kMax ↔ kLow ≤ k ∧ k ≤ kMax := by
  unfold candidateKs
  rw [List.mem_range'_1]
  omega


/-- Claim C6: mask selection evaluates candidate widths from `ceil(log2 N)`
    up to the configured maximum and returns the smallest width whose maximum
    chain length meets the threshold; failing that, it returns the width with
    the smallest maximum chain length (ties to the smallest width) together
    with the `ThresholdUnsatisfiable` warning, and construction still
    succeeds (`selectMaskWidth` is total). -/
theorem claim_C6_mask_selection (sels : List Nat) (threshold kMax : Nat)
    (h : clog2 sels.length ≤ kMax) : selectMaskSpec sels threshold kMax := by
  cases hf : (candidateKs (clog2 sels.length) kMax).find?
      (fun k => decide (maxChainLen k sels ≤ threshold)) with
  | some k =>
    have hr : selectMaskWidth sels threshold kMax = (k, false) := by
      unfold selectMaskWidth
      rw [hf]
    unfold selectMaskSpec
    rw [hr]
    have hkmem := (mem_candidateKs _ _ k h).mp (List.mem_of_find?_eq_some hf)
    refine ⟨⟨hkmem.1, hkmem.2⟩, ?_, ?_⟩
    · intro _
      constructor
      · have hp := List.find?_some hf
        rw [decide_eq_true_eq] at hp
        exact hp
      · intro k2 hk1 hk2
        have hpf := find?_range'_first (fun k => decide (maxChainLen k sels ≤ threshold))
          (kMax + 1 - clog2 sels.length) (clog2 sels.length) k hf k2 hk1 hk2
        rw [decide_eq_false_iff_not] at hpf
        exact Nat.lt_of_not_le hpf
    · intro hcon
      exact absurd hcon (by simp)
  | none =>
    have hr : selectMaskWidth sels threshold kMax =
        ((candidateKs (clog2 sels.length) kMax).foldl
          (fun best k => if maxChainLen k sels < maxChainLen best sels then k else best)
          (clog2 sels.length), true) := by
      unfold selectMaskWidth
      rw [hf]
    unfold selectMaskSpec
    rw [hr]
    have hlowmem : clog2 sels.length ∈ candidateKs (clog2 sels.length) kMax :=
      (mem_candidateKs _ _ _ h).mpr ⟨Nat.le_refl _, h⟩
    have hb := foldl_argmin (fun k => maxChainLen k sels)
      (candidateKs (clog2 sels.length) kMax) (clog2 sels.length)
      (fun x hx => ((mem_candidateKs _ _ x h).mp hx).1)
      ((List.pairwise_lt_range' _ _ _).imp Nat.le_of_lt)
    obtain ⟨hb1, hb2, hb3, hb4, hb5⟩ := hb
    have hbmem : (candidateKs (clog2 sels.length) kMax).foldl
        (fun best k => if maxChainLen k sels < maxChainLen best sels then k else best)
        (clog2 sels.length) ∈ candidateKs (clog2 sels.length) kMax := by
      rcases hb1 with hcase | hcase
      · rw [hcase]
        exact hlowmem
      · exact hcase
    have hbmem2 := (mem_candidateKs _ _ _ h).mp hbmem
    refine ⟨⟨hbmem2.1, hbmem2.2⟩, ?_, ?_⟩
    · intro hcon
      exact absurd hcon (by simp)
    · intro _
      have hfail : ∀ k2, clog2 sels.length ≤ k2 → k2 ≤ kMax →
          threshold < maxChainLen k2 sels := by
        intro k2 hk1 hk2
        have hnone := List.find?_eq_none.mp hf k2 ((mem_candidateKs _ _ k2 h).mpr ⟨hk1, hk2⟩)
        rw [decide_eq_true_eq] at hnone
        exact Nat.lt_of_not_le hnone
      refine ⟨hfail, ?_, ?_⟩
      · intro k2 hk1 hk2
        exact hb3 k2 ((mem_candidateKs _ _ k2 h).mpr ⟨hk1, hk2⟩)
      · intro k2 hk1 hk2 heq
        exact hb5 k2 ((mem_candidateKs _ _ k2 h).mpr ⟨hk1, hk2⟩) heq

/-- Witness for claim C6 on four selectors with threshold 2 and bound 4. -/
theorem claim_C6_witness :
    clog2 ([(0 : Nat), 1, 2, 3].length) ≤ 4 ∧ selectMaskSpec [0, 1, 2, 3] 2 4 :=
  ⟨by decide, claim_C6_mask_selection [0, 1, 2, 3] 2 4 (by decide)⟩


theorem slotIndex_eq_mod (s k : Nat) : slotIndex s k = s % 2 ^ k :=
  Nat.and_pow_two_sub_one_eq_mod s k

theorem slotIndex_lt (s k : Nat) : slotIndex s k < 2 ^ k := by
  rw [slotIndex_eq_mod]
  exact Nat.mod_lt _ (Nat.pos_pow_of_pos k (by decide))

theorem buildTable_get {H : Type} (k : Nat) (m : List (Nat × H)) (i : Nat) (hi : i < 2 ^ k) :
    (buildTable k m)[i]? = some (mkEntry (slotPairs k m i)) := by
  unfold buildTable
  rw [List.getElem?_map, List.getElem?_range hi]
  rfl

theorem mem_slotPairs {H : Type} (k : Nat) (m : List (Nat × H)) (i : Nat) (p : Nat × H) :
    p ∈ slotPairs k m i ↔ p ∈ m ∧ slotIndex p.1 k = i := by
  unfold slotPairs
  rw [(sortPairs_perm _).mem_iff]
  rw [List.mem_filter]
  simp only [decide_eq_true_eq]

theorem slotPairs_keys_nodup {H : Type} (k : Nat) (m : List (Nat × H)) (i : Nat)
    (hnd : (m.map Prod.fst).Nodup) : ((slotPairs k m i).map Prod.fst).Nodup := by
  unfold slotPairs
  rw [List.Perm.nodup_iff ((sortPairs_perm _).map Prod.fst)]
  exact List.Nodup.sublist ((List.filter_sublist m).map Prod.fst) hnd

theorem find?_key_unique {H : Type} (l : List (Nat × H)) (s : Nat) (h : H)
    (hnd : (l.map Prod.fst).Nodup) (hm : (s, h) ∈ l) :
    l.find? (fun p => decide (p.1 = s)) = some (s, h) := by
  induction l with
  | nil => exact absurd hm (by simp)
  | cons q t ih =>
    rw [List.find?_cons]
    by_cases hq : q.1 = s
    · rw [show (decide (q.1 = s)) = true by simp [hq]]
      rcases List.mem_cons.mp hm with he | ht
      · rw [he]
      · exfalso
        rw [List.map_cons, List.nodup_cons] at hnd
        exact hnd.1 (hq ▸ List.mem_map.mpr ⟨(s, h), ht, rfl⟩)
    · rw [show (decide (q.1 = s)) = false by simp [hq]]
      rw [List.map_cons, List.nodup_cons] at hnd
      apply ih hnd.2
      rcases List.mem_cons.mp hm with he | ht
      · exact absurd (by rw [← he] : q.1 = (s, h).1) (by simpa using hq)
      · exact ht

theorem lookupTable_mem {H : Type} (k : Nat) (m : List (Nat × H))
    (hnd : (m.map Prod.fst).Nodup) (s : Nat) (h : H) (hm : (s, h) ∈ m) :
    lookupTable k (buildTable k m) s = some h := by
  unfold lookupTable
  rw [buildTable_get k m _ (slotIndex_lt s k)]
  have hmem : (s, h) ∈ slotPairs k m (slotIndex s k) :=
    (mem_slotPairs k m _ (s, h)).mpr ⟨hm, rfl⟩
  have hndq := slotPairs_keys_nodup k m (slotIndex s k) hnd
  cases hqs : slotPairs k m (slotIndex s k) with
  | nil =>
    rw [hqs] at hmem
    exact absurd hmem (by simp)
  | cons q t =>
    rw [hqs] at hmem hndq
    cases t with
    | nil =>
      show some q.2 = some h
      rcases List.mem_cons.mp hmem with he | ht
      · rw [← he]
      · exact absurd ht (by simp)
    | cons q2 t2 =>
      show ((q :: q2 :: t2).find? (fun p => decide (p.1 = s))).map Prod.snd = some h
      rw [find?_key_unique (q :: q2 :: t2) s h hndq hmem]
      rfl

/-- Claim C7: for a valid (duplicate-free) selector set, every input selector
    appears in exactly one slot's resolution path — in exactly one slot's
    chain list, and exactly once there — and lookup of its exact 4-byte value
    returns its handler; a selector matching no entry (an `EMPTY` slot or a
    `CHAIN` with no exact match, per §4.4) yields the no-matching-function
    fallback `none`. -/
theorem claim_C7_lookup {H : Type} (k : Nat) (m : List (Nat × H))
    (hnd : (m.map Prod.fst).Nodup) :
    (∀ s h, (s, h) ∈ m →
      (slotsResolving k m s).length = 1 ∧
      ((slotPairs k m (slotIndex s k)).map Prod.fst).count s = 1 ∧
      lookupTable k (buildTable k m) s = some h) ∧
    (∀ s, s ∉ m.map Prod.fst →
      ((buildTable k m)[slotIndex s k]? = some SlotEntry.emptySlot ∨
        ∃ ps, (buildTable k m)[slotIndex s k]? = some (SlotEntry.chain ps)) →
      lookupTable k (buildTable k m) s = none) := by
  constructor
  · intro s h hm
    refine ⟨?_, ?_, lookupTable_mem k m hnd s h hm⟩
    · unfold slotsResolving
      rw [← List.countP_eq_length_filter]
      rw [List.countP_congr (q := fun i => i == slotIndex s k) (fun i hi => by
        simp only [decide_eq_true_eq, beq_iff_eq]
        constructor
        · intro hmem
          obtain ⟨p, hp, hps⟩ := List.mem_map.mp hmem
          have := ((mem_slotPairs k m i p).mp hp).2
          rw [hps] at this
          exact this.symm
        · intro hieq
          exact List.mem_map.mpr ⟨(s, h),
            (mem_slotPairs k m i (s, h)).mpr ⟨hm, hieq.symm⟩, rfl⟩)]
      rw [← List.count_eq_countP]
      exact List.count_eq_one_of_mem (List.nodup_range _)
        (List.mem_range.mpr (slotIndex_lt s k))
    · exact List.count_eq_one_of_mem (slotPairs_keys_nodup k m _ hnd)
        (List.mem_map.mpr ⟨(s, h), (mem_slotPairs k m _ (s, h)).mpr ⟨hm, rfl⟩, rfl⟩)
  · intro s hs hdisj
    unfold lookupTable
    rcases hdisj with hemp | ⟨ps, hchain⟩
    · rw [hemp]
    · rw [hchain]
      have hget := buildTable_get k m (slotIndex s k) (slotIndex_lt s k)
      rw [hchain, Option.some.injEq] at hget
      have hps : slotPairs k m (slotIndex s k) = ps := mkEntry_chain_inv _ _ hget.symm
      show (ps.find? (fun p => decide (p.1 = s))).map Prod.snd = none
      rw [List.find?_eq_none.mpr (fun p hp => by
        rw [← hps] at hp
        have hpm := ((mem_slotPairs k m _ p).mp hp).1
        simp only [decide_eq_true_eq]
        intro hpeq
        exact hs (List.mem_map.mpr ⟨p, hpm, hpeq⟩))]
      rfl

/-- Witness for claim C7 on a colliding two-selector set (both selectors map
    to slot 1 under mask width 1, forming a chain). -/
theorem claim_C7_witness :
    (([((1 : Nat), (10 : Nat)), (3, 30)].map Prod.fst).Nodup) ∧
    ((3 : Nat), (30 : Nat)) ∈ [((1 : Nat), (10 : Nat)), (3, 30)] ∧
    (slotsResolving 1 [((1 : Nat), (10 : Nat)), (3, 30)] 3).length = 1 ∧
    ((slotPairs 1 [((1 : Nat), (10 : Nat)), (3, 30)] (slotIndex 3 1)).map Prod.fst).count 3 = 1 ∧
    lookupTable 1 (buildTable 1 [((1 : Nat), (10 : Nat)), (3, 30)]) 3 = some 30 := by
  have hmain := (claim_C7_lookup 1 [((1 : Nat), (10 : Nat)), (3, 30)] (by decide)).1 3 30
    (by decide)
  exact ⟨by decide, by decide, hmain.1, hmain.2.1, hmain.2.2⟩
